import Mathlib

/-!
# Verification of the imagebackup block-index and decoder logic

Shallow embedding of the Python sources of the `imagebackup` package
(`imagebackup.py`, `partclone.py`, `ntfsclone.py`, `partimage.py`,
`blockio.py`).  Byte strings are modelled as `List Nat` (each entry a byte,
`< 256`), machine integers as `Nat`/`Int`, and fallible constructors as
`Except` with typed error values standing for the Python exceptions.
-/

namespace ImgBackup

/-- `BITS_SET[b]`: the number of bits set in byte `b`
(`imagebackup.py`, `BITS_SET = [bin(i).count('1') for i in range(256)]`;
bytes are < 256, so only bits 0..7 are counted). -/
def BITS_SET (b : Nat) : Nat := ((List.range 8).filter fun i => b.testBit i).length

/-- `sum(BITS_SET[b] for b in l if b != 0)` as it appears in
`buildBlockIndex` and `getBlockOffset` (`imagebackup.py`). -/
def inuseSum (l : List Nat) : Nat := ((l.filter fun b => b != 0).map BITS_SET).sum

/-- Plain popcount of a byte list; the `if b != 0` filter of `inuseSum`
only skips zero summands. -/
def popList (l : List Nat) : Nat := (l.map BITS_SET).sum

/-- Python slice `l[a:b]`. -/
def slice (l : List Nat) (a b : Nat) : List Nat := (l.drop a).take (b - a)

/-- Little-endian value of a byte list (`struct.unpack('<...')`). -/
def readLE : List Nat → Nat
  | [] => 0
  | b :: rest => b + 256 * readLE rest

/-- Big-endian value of a byte list (`struct.unpack('>...')`). -/
def readBE (l : List Nat) : Nat := readLE l.reverse

/-- `n` encoded as `k` little-endian bytes. -/
def leBytes (n : Nat) : Nat → List Nat
  | 0 => []
  | k + 1 => (n % 256) :: leBytes (n / 256) k

/-- One step of the loop in `crc`: `crc = (crc >> 1) ^ 0xedb88320 if crc & 1
else crc >> 1` (`imagebackup.py`). -/
def crcByteStep (c : Nat) : Nat := if c % 2 = 1 then (c / 2) ^^^ 0xedb88320 else c / 2

/-- `crc(byte)`: computes the `CRC32_TABLE` cached values (`imagebackup.py`). -/
def crcEntry (byte : Nat) : Nat := (List.range 8).foldl (fun c _ => crcByteStep c) byte

/-- `CRC32_TABLE = [crc(i) for i in range(256)]` (`imagebackup.py`). -/
def CRC32_TABLE : List Nat := (List.range 256).map crcEntry

/-- `CRC32_SEED = 0xffffffff` (`imagebackup.py`). -/
def CRC32_SEED : Nat := 0xffffffff

/-- `crc32(buffer, seed)` from `imagebackup.py`: table-driven CRC-32 with the
polynomial `0xedb88320`; note that the source applies *no* final XOR. -/
def crc32 (buffer : List Nat) (seed : Nat) : Nat :=
  buffer.foldl (fun crc b => (crc >>> 8) ^^^ CRC32_TABLE.getD ((crc ^^^ b) &&& 0xff) 0) seed

/-- Modelled from the spec: "CRC32 is the IEEE polynomial with reflected
input/output, seed `0xFFFFFFFF`, final XOR `0xFFFFFFFF`" — i.e. the value of
`crc32` *with* the final complement applied. -/
def ieee_crc32 (buffer : List Nat) : Nat := crc32 buffer CRC32_SEED ^^^ 0xffffffff

/-!
## The `ImageBackup` base class (`imagebackup.py`)

The fields a bitmap-based image (`PartClone`, `PartImage`) exposes to the
base-class methods: the bitmap, `blockSize()`, `checksum_size`,
`checksum_blocks`, `block_offset_size`, `blocksSectionOffset()`,
`totalSize()` and `totalBlocks()`.
-/

/-- Decidable equality of `Except` values, for concrete evaluation. -/
instance {e a : Type} [DecidableEq e] [DecidableEq a] : DecidableEq (Except e a)
  | .error x, .error y =>
    if h : x = y then .isTrue (by rw [h]) else
      .isFalse (by intro hc; injection hc; contradiction)
  | .error _, .ok _ => .isFalse (by intro hc; exact Except.noConfusion hc)
  | .ok _, .error _ => .isFalse (by intro hc; exact Except.noConfusion hc)
  | .ok x, .ok y =>
    if h : x = y then .isTrue (by rw [h]) else
      .isFalse (by intro hc; injection hc; contradiction)

structure Image where
  bitmap : List Nat
  block_size : Nat
  checksum_size : Nat
  checksum_blocks : Nat
  block_offset_size : Nat
  blocks_section : Nat
  total_size : Nat
  total_blocks : Nat
deriving Repr, DecidableEq, Inhabited

/-- The `ImageBackupException` raised by `blockInUse`/`getBlockOffset` when
the block number is out of range. -/
inductive BlockErr where
  | outOfRange
deriving Repr, DecidableEq, Inhabited

/-- `BlockOffset` (`imagebackup.py`): one sparse-index entry. -/
structure BlockOffset where
  file_offset : Nat
  cksum_offset : Nat
deriving Repr, DecidableEq, Inhabited

/-- `ImageBackup.blockInUse` for a non-negative block number: raises when
`block_no // 8 >= len(self.bitmap)`, otherwise tests
`self.bitmap[block_no // 8] & (1 << (block_no & 7))`. -/
def blockInUse (img : Image) (block_no : Nat) : Except BlockErr Bool :=
  if img.bitmap.length ≤ block_no / 8 then .error .outOfRange
  else .ok (Nat.testBit (img.bitmap.getD (block_no / 8) 0) (block_no % 8))

/-- `ImageBackup.blockInUse` on a Python `int`: the `block_no < 0` disjunct
of the range check. -/
def blockInUseI (img : Image) (block_no : Int) : Except BlockErr Bool :=
  if block_no < 0 then .error .outOfRange else blockInUse img block_no.toNat

/-- The loop body of `ImageBackup.buildBlockIndex` (`imagebackup.py`),
iterating over the bitmap in strides of `sb = block_offset_size // 8` bytes.
`fuel` only bounds the recursion; the caller passes `bm.length`, which is
enough since every iteration drops at least one byte (`sb > 0`).
The `block_offset` argument models the source's reuse of the previous
`BlockOffset` object when `file_offset` has not advanced. -/
def buildBlockIndexAux (sb bs cs cb : Nat) :
    Nat → List Nat → Nat → Nat → BlockOffset → List BlockOffset
  | 0, _, _, _, _ => []
  | fuel + 1, bm, file_offset, blocks_chksum, block_offset =>
    if bm.isEmpty then []
    else
      let bo := if file_offset ≠ block_offset.file_offset then
                  ⟨file_offset, blocks_chksum⟩ else block_offset
      let inuse_blocks := inuseSum (bm.take sb)
      let blocks_chksum1 := blocks_chksum + inuse_blocks
      let file_offset1 := file_offset + bs * inuse_blocks
      let file_offset2 := if cb ≠ 0 ∧ cb ≤ blocks_chksum1 then
                            file_offset1 + cs * (blocks_chksum1 / cb) else file_offset1
      let blocks_chksum2 := if cb ≠ 0 ∧ cb ≤ blocks_chksum1 then
                              blocks_chksum1 % cb else blocks_chksum1
      bo :: buildBlockIndexAux sb bs cs cb fuel (bm.drop sb) file_offset2 blocks_chksum2 bo

/-- `ImageBackup.buildBlockIndex` (`imagebackup.py`): starts from
`file_offset = blocksSectionOffset()`, `blocks_chksum = 0` and the initial
`BlockOffset(file_offset, 0)`. -/
def buildBlockIndex (img : Image) : List BlockOffset :=
  buildBlockIndexAux (img.block_offset_size / 8) img.block_size img.checksum_size
    img.checksum_blocks img.bitmap.length img.bitmap img.blocks_section 0
    ⟨img.blocks_section, 0⟩

/-- `ImageBackup.getBlockOffset` (`imagebackup.py`) for a non-negative block
number: `None` for an unused block, otherwise the entry
`block_offsets[block_no // block_offset_size]` plus the popcount of the
bitmap between the entry's first byte and `block_no`. -/
def getBlockOffset (img : Image) (block_no : Nat) : Except BlockErr (Option Nat) :=
  match blockInUse img block_no with
  | .error e => .error e
  | .ok false => .ok none
  | .ok true =>
    let block_offsets := buildBlockIndex img
    let block_size := img.block_size
    let block_offset_idx := block_no / img.block_offset_size
    let block_offset := block_offsets.getD block_offset_idx ⟨0, 0⟩
    let bm_idx1 := block_offset_idx * (img.block_offset_size / 8)
    let bm_idx2 := block_no / 8
    let inuse_blocks := inuseSum (slice img.bitmap bm_idx1 bm_idx2)
        + BITS_SET ((img.bitmap.getD bm_idx2 0) &&& ((1 <<< (block_no % 8)) - 1))
    let blocks_cksum := block_offset.cksum_offset + inuse_blocks
    let file_offset := block_offset.file_offset + block_size * inuse_blocks
    let file_offset := if img.checksum_blocks ≠ 0 ∧ img.checksum_blocks ≤ blocks_cksum
                       then file_offset + img.checksum_size * (blocks_cksum / img.checksum_blocks)
                       else file_offset
    .ok (some file_offset)

/-- `ImageBackup.getBlockOffset` on a Python `int`. -/
def getBlockOffsetI (img : Image) (block_no : Int) : Except BlockErr (Option Nat) :=
  if block_no < 0 then .error .outOfRange else getBlockOffset img block_no.toNat

/-!
## Spec-side linear scan

Modelled from the spec: "the offset that a full linear scan of the bitmap
from the start of the data section would compute, counting `block_size`
bytes per set bit and `checksum_size` bytes after every `checksum_blocks`
in-use blocks".
-/

/-- Bit `j` of the bitmap: is logical block `j` present? -/
def usedAt (bm : List Nat) (j : Nat) : Bool := Nat.testBit (bm.getD (j / 8) 0) (j % 8)

/-- Number of in-use blocks strictly before block `k` (a linear scan). -/
def scanPop (bm : List Nat) (k : Nat) : Nat :=
  ((List.range k).filter fun j => usedAt bm j).length

/-- Modelled from the spec: the file offset of used block `k` as computed by
a full linear scan from the start of the data section. -/
def scanOffset (img : Image) (k : Nat) : Nat :=
  img.blocks_section + img.block_size * scanPop img.bitmap k
    + (if img.checksum_blocks ≠ 0 then
         img.checksum_size * (scanPop img.bitmap k / img.checksum_blocks) else 0)

/-!
## `BlockIO` (`blockio.py`)
-/

/-- `BlockIO.total_blocks = (image.totalSize() + block_size - 1) // block_size`. -/
def bioTotalBlocks (img : Image) : Nat :=
  (img.total_size + img.block_size - 1) / img.block_size

/-- `BlockIO.total_size = block_size * total_blocks`. -/
def bioTotalSize (img : Image) : Nat := img.block_size * bioTotalBlocks img

/-- `BlockIO.empty_block = bytes(block_size)`. -/
def empty_block (img : Image) : List Nat := List.replicate img.block_size 0

/-- The `for block_no in range(min_block, max_block + 1)` loop of
`BlockIO.read_data`.  A stored block is `file[o : o + block_size]`; when the
underlying file is shorter, the source *constructs* an
`ImageBackupException` but does not `raise` it, so the short block is
spliced into the output unchanged. -/
def read_data_loop (img : Image) (file : List Nat) (offset size min_block max_block : Nat) :
    List Nat → Except BlockErr (List Nat)
  | [] => .ok []
  | block_no :: rest =>
    let idx1 := if block_no = min_block then offset % img.block_size else 0
    let idx2 := if block_no = max_block then ((offset + size - 1) % img.block_size) + 1
                else img.block_size
    match getBlockOffset img block_no with
    | .error e => .error e
    | .ok blockOff =>
      let block := match blockOff with
        | none => empty_block img
        | some o => slice file o (o + img.block_size)
      match read_data_loop img file offset size min_block max_block rest with
      | .error e => .error e
      | .ok out => .ok (slice block idx1 idx2 ++ out)

/-- `BlockIO.read_data(offset, size)` (`blockio.py`): clamp the size to the
whole-block-rounded partition end, then read block by block. -/
def read_data (img : Image) (file : List Nat) (offset size : Nat) :
    Except BlockErr (List Nat) :=
  let size := if bioTotalSize img < offset + size then bioTotalSize img - offset else size
  if 0 < size then
    let min_block := offset / img.block_size
    let max_block := (offset + size - 1) / img.block_size
    read_data_loop img file offset size min_block max_block
      (List.range' min_block (max_block + 1 - min_block))
  else .ok []

/-!
## `PartClone` (`partclone.py`)
-/

/-- `ImageBackup.PARTCLONE = b'partclone-image'`. -/
def PARTCLONE : List Nat := [112, 97, 114, 116, 99, 108, 111, 110, 101, 45, 105, 109, 97, 103, 101]

/-- `ImageBackup.NTFSCLONE = b'\x00ntfsclone-image'`. -/
def NTFSCLONE : List Nat :=
  [0, 110, 116, 102, 115, 99, 108, 111, 110, 101, 45, 105, 109, 97, 103, 101]

/-- `ImageBackup.PARTIMAGE = b'PaRtImAgE-VoLuMe' + bytes(16)`. -/
def PARTIMAGE : List Nat :=
  [80, 97, 82, 116, 73, 109, 65, 103, 69, 45, 86, 111, 76, 117, 77, 101] ++ List.replicate 16 0

/-- The `PartCloneException`s raised by `PartClone.__init__`; none of them
carries the bytes read so far (contrast `WrongImageFile`). -/
inductive PartCloneErr where
  | notPartcloneImage
  | unsupportedVersion
  | unexpectedEndianness
  | truncatedHeader
  | unsupportedChecksumMode
  | headerCrcMismatch
  | unexpectedEndOfFile
  | bitmapCrcMismatch
  | badBlockOffsetSize
  | bitmapCountMismatch
deriving Repr, DecidableEq

/-- The header fields and bitmap of a successfully opened partclone image. -/
structure PartClone where
  img_version : List Nat
  endian_le : Bool
  fs_total_size : Nat
  fs_total_blocks : Nat
  fs_used_blocks : Nat
  fs_used_bitmap : Nat
  fs_block_size : Nat
  image_version : Nat
  cpu_bits : Nat
  checksum_mode : Nat
  checksum_size : Nat
  checksum_blocks : Nat
  checksum_reseed : Nat
  bitmap_mode : Nat
  header_crc32 : Nat
  bitmap : List Nat
  bitmap_crc32 : Nat
  blocks_section : Nat
  block_offset_size : Nat
deriving Repr, DecidableEq, Inhabited

/-- An unsigned field of `struct.unpack(f'{endian}...')`. -/
def readN (endian_le : Bool) (buf : List Nat) (off n : Nat) : Nat :=
  if endian_le then readLE (slice buf off (off + n)) else readBE (slice buf off (off + n))

/-- `PartClone.usedBlocks(): return max(self.fs_used_bitmap, self.fs_used_blocks)`. -/
def PartClone.usedBlocks (pc : PartClone) : Nat := max pc.fs_used_bitmap pc.fs_used_blocks

/-- Bitmap masking from `PartClone.__init__` (lines 105-108): clear any bits
past `total_blocks` in the final byte. -/
def maskFinalByte (bitmap : List Nat) (total_blocks : Nat) : List Nat :=
  if total_blocks % 8 ≠ 0 then
    if bitmap.getLastD 0 &&& ((1 <<< (total_blocks % 8)) - 1) ≠ bitmap.getLastD 0 then
      bitmap.dropLast ++ [bitmap.getLastD 0 &&& ((1 <<< (total_blocks % 8)) - 1)]
    else bitmap
  else bitmap

/-- `self.endian = '<'`: the endianness marker `0xc0de` read little-endian
from bytes 34..36 of the header. -/
def pcEndianLe (buffer : List Nat) : Bool := readLE (slice buffer 34 36) = 0xc0de

/-- One unsigned field of the `struct.unpack(f'{self.endian}4Q2L4HL2BL',
buffer[52:110])` call, at offset `off`, `n` bytes wide. -/
def pcField (buffer : List Nat) (off n : Nat) : Nat := readN (pcEndianLe buffer) buffer off n

/-- The raw (unmasked) bitmap: `(total_blocks + 7) // 8` bytes starting
right after the 110-byte header. -/
def pcBitmapRaw (image : List Nat) : List Nat :=
  slice image 110 (110 + (pcField (image.take 110) 60 8 + 7) / 8)

/-- The bitmap-reading half of `PartClone.__init__`: bitmap length check,
bitmap CRC check, `block_offset_size` multiple-of-8 check, final-byte
masking, and the popcount versus `usedBlocks()` comparison. -/
def pcReadBitmap (image : List Nat) (block_offset_size : Nat) :
    Except PartCloneErr PartClone :=
  if (pcBitmapRaw image).length ≠ (pcField (image.take 110) 60 8 + 7) / 8 then
    .error .unexpectedEndOfFile
  else if readN (pcEndianLe (image.take 110)) image
      (110 + (pcField (image.take 110) 60 8 + 7) / 8) 4
      ≠ crc32 (pcBitmapRaw image) CRC32_SEED then .error .bitmapCrcMismatch
  else if block_offset_size % 8 ≠ 0 then .error .badBlockOffsetSize
  else if inuseSum (maskFinalByte (pcBitmapRaw image) (pcField (image.take 110) 60 8))
      ≠ max (pcField (image.take 110) 76 8) (pcField (image.take 110) 68 8) then
    .error .bitmapCountMismatch
  else .ok ⟨slice (image.take 110) 30 34, pcEndianLe (image.take 110),
    pcField (image.take 110) 52 8, pcField (image.take 110) 60 8,
    pcField (image.take 110) 68 8, pcField (image.take 110) 76 8,
    pcField (image.take 110) 84 4, pcField (image.take 110) 92 2,
    pcField (image.take 110) 94 2, pcField (image.take 110) 96 2,
    pcField (image.take 110) 98 2, pcField (image.take 110) 100 4,
    pcField (image.take 110) 104 1, pcField (image.take 110) 105 1,
    pcField (image.take 110) 106 4,
    maskFinalByte (pcBitmapRaw image) (pcField (image.take 110) 60 8),
    readN (pcEndianLe (image.take 110)) image
      (110 + (pcField (image.take 110) 60 8 + 7) / 8) 4,
    110 + (pcField (image.take 110) 60 8 + 7) / 8 + 4, block_offset_size⟩

/-- `PartClone.__init__` (`partclone.py`): read the 110-byte header, check
magic / version / endianness / checksum mode / header CRC, then read the
bitmap (`pcReadBitmap`).  `truncatedHeader` stands for the `struct.error`
Python raises when unpacking a buffer shorter than 110 bytes.  The unused
`feature_selection` field (bytes 88..92) is not retained. -/
def partCloneOpen (image : List Nat) (block_offset_size : Nat) :
    Except PartCloneErr PartClone :=
  if (image.take 110).take 15 ≠ PARTCLONE then .error .notPartcloneImage
  else if slice (image.take 110) 30 34 ≠ [48, 48, 48, 50] then .error .unsupportedVersion
  else if readLE (slice (image.take 110) 34 36) ≠ 0xc0de
      ∧ readLE (slice (image.take 110) 34 36) ≠ 0xdec0 then .error .unexpectedEndianness
  else if (image.take 110).length < 110 then .error .truncatedHeader
  else if pcField (image.take 110) 96 2 ≠ 0 ∧ pcField (image.take 110) 96 2 ≠ 32 then
    .error .unsupportedChecksumMode
  else if pcField (image.take 110) 106 4 ≠ crc32 ((image.take 110).take 106) CRC32_SEED then
    .error .headerCrcMismatch
  else pcReadBitmap image block_offset_size

/-!
## `NtfsClone` (`ntfsclone.py`)
-/

/-- Errors of the ntfsclone index/lookup.  `noFuel` marks executions on
which the source's unbounded loops do not terminate within the modelled
fuel; `assertFail` models a failing `assert`. -/
inductive NtfsErr where
  | outOfRange
  | assertFail
  | noFuel
  | corrupt
  | truncated
deriving Repr, DecidableEq

/-- `ClusterRange` (`ntfsclone.py`): `offset` is `-1` for unused ranges. -/
structure ClusterRange where
  used : Bool
  start : Nat
  size : Nat
  offset : Int
deriving Repr, DecidableEq, Inhabited

/-- `ClusterRange.end()`: the cluster after the last one in this range. -/
def ClusterRange.endCluster (r : ClusterRange) : Nat := r.start + r.size

/-- The binary-search loop of `ClusterIndex.offset` (`ntfsclone.py`):
`while l < r: m = (l+r)//2; if cluster < ranges[m].start: r = m else:
l = m; if cluster < ranges[m].end(): break`.  Returns the final `l`, or
`none` when the loop does not finish within `fuel` iterations (the source
loop is unbounded and can spin forever). -/
def bsearchAux (ranges : List ClusterRange) (cluster : Nat) : Nat → Nat → Nat → Option Nat
  | 0, _, _ => none
  | fuel + 1, l, r =>
    if l < r then
      let m := (l + r) / 2
      if cluster < (ranges.getD m default).start then bsearchAux ranges cluster fuel l m
      else if cluster < (ranges.getD m default).endCluster then some m
      else bsearchAux ranges cluster fuel m r
    else some l

/-- `ClusterIndex.offset(cluster)` (`ntfsclone.py`): binary search followed
by the `assert` and the offset formula
`cr.offset + (cluster - cr.start) * (cluster_size + 1)`. -/
def clusterOffset (cluster_size : Nat) (ranges : List ClusterRange) (cluster : Nat) :
    Except NtfsErr (Option Int) :=
  match bsearchAux ranges cluster (ranges.length + 1) 0 ranges.length with
  | none => .error .noFuel
  | some l =>
    if (ranges.getD l default).start ≤ cluster
        ∧ cluster < (ranges.getD l default).endCluster then
      if (ranges.getD l default).used then
        .ok (some ((ranges.getD l default).offset
          + (((cluster - (ranges.getD l default).start) * (cluster_size + 1) : Nat) : Int)))
      else .ok none
    else .error .assertFail

/-- `NtfsClone.getBlockOffset` (`ntfsclone.py`): raises exactly when
`block_no < 0 or block_no > self.nr_clusters`, then defers to the cluster
index. -/
def ntfsGetBlockOffset (nr_clusters cluster_size : Nat) (ranges : List ClusterRange)
    (block_no : Int) : Except NtfsErr (Option Int) :=
  if block_no < 0 ∨ (nr_clusters : Int) < block_no then .error .outOfRange
  else clusterOffset cluster_size ranges block_no.toNat

/-- The command-stream loop of `NtfsClone.buildBlockIndex` (`ntfsclone.py`)
over the raw bytes of the image past `offset_to_image_data`.  Command `0`
is followed by an 8-byte little-endian count of unused clusters; command
`1` by one cluster of payload.  `offset` tracks `self.file.tell()`.
`fuel` bounds the loop; each iteration consumes at least the command byte,
so `file.length + 1` is always enough. -/
def ntfsIndexAux (cluster_size nr_clusters : Nat) :
    Nat → List Nat → Nat → Nat → ClusterRange → List ClusterRange →
    Except NtfsErr (List ClusterRange)
  | 0, _, _, _, _, _ => .error .noFuel
  | fuel + 1, file, offset, cluster_no, cur_range, acc =>
    match file with
    | [] => .ok (acc ++ [cur_range])
    | cmd :: rest =>
      let offset := offset + 1
      if cmd = 0 then
        if rest.length < 8 then .error .truncated
        else
          let count := readLE (rest.take 8)
          let offset := offset + 8
          let acc := if cluster_no ≠ 0 then acc ++ [cur_range] else acc
          ntfsIndexAux cluster_size nr_clusters fuel (rest.drop 8) offset
            (cluster_no + count) ⟨false, cluster_no, count, -1⟩ acc
      else if cmd = 1 then
        if nr_clusters < cluster_no then .error .corrupt
        else if cur_range.used then
          ntfsIndexAux cluster_size nr_clusters fuel (rest.drop cluster_size)
            (offset + cluster_size) (cluster_no + 1)
            ⟨true, cur_range.start, cur_range.size + 1, cur_range.offset⟩ acc
        else
          let acc := if cluster_no ≠ 0 then acc ++ [cur_range] else acc
          ntfsIndexAux cluster_size nr_clusters fuel (rest.drop cluster_size)
            (offset + cluster_size) (cluster_no + 1)
            ⟨true, cluster_no, 1, (offset : Int)⟩ acc
      else .error .corrupt

/-- `NtfsClone.buildBlockIndex`: scan the whole command stream once,
starting at file position `offset_to_image_data` with
`cur_range = ClusterRange(False, 0, 0, -1)`. -/
def ntfsBuildBlockIndex (cluster_size nr_clusters offset_to_image_data : Nat)
    (file : List Nat) : Except NtfsErr (List ClusterRange) :=
  ntfsIndexAux cluster_size nr_clusters (file.length + 1) file offset_to_image_data 0
    ⟨false, 0, 0, -1⟩ []

/-- Errors of `NtfsClone.__init__`.  `wrongImageFile` is modelled from the
spec: the `WrongImageFile` exception class is referenced but not defined in
the sources; per the spec it "carries the peeked bytes so the Format Probe
can redispatch". -/
inductive NtfsHeaderErr where
  | truncated
  | wrongImageFile (magic : List Nat)
  | unsupportedMajorVersion
deriving Repr, DecidableEq

/-- The ntfsclone 50-byte header. -/
structure NtfsHeader where
  major_ver : Nat
  minor_ver : Nat
  cluster_size : Nat
  device_size : Nat
  nr_clusters : Nat
  inuse : Nat
  offset_to_image_data : Nat
deriving Repr, DecidableEq, Inhabited

/-- `NtfsClone.__init__` (`ntfsclone.py`): read 50 bytes, check length,
magic (raising `WrongImageFile` carrying the buffer), unpack `'<2BL3QL'`,
and reject a major version other than 10 (a minor-version mismatch only
warns). -/
def ntfsOpen (image : List Nat) : Except NtfsHeaderErr NtfsHeader :=
  let buffer := image.take 50
  if buffer.length < 50 then .error .truncated
  else if buffer.take 16 ≠ NTFSCLONE then .error (.wrongImageFile buffer)
  else
    let major_ver := readLE (slice buffer 16 17)
    let minor_ver := readLE (slice buffer 17 18)
    let cluster_size := readLE (slice buffer 18 22)
    let device_size := readLE (slice buffer 22 30)
    let nr_clusters := readLE (slice buffer 30 38)
    let inuse := readLE (slice buffer 38 46)
    let offset_to_image_data := readLE (slice buffer 46 50)
    if major_ver ≠ 10 then .error .unsupportedMajorVersion
    else .ok ⟨major_ver, minor_ver, cluster_size, device_size, nr_clusters, inuse,
      offset_to_image_data⟩

/-!
## `PartImage` (`partimage.py`)
-/

inductive PartImageErr where
  | truncated
  | wrongImageFile (magic : List Nat)
deriving Repr, DecidableEq

/-- The fields of the 512-byte partimage Volume Header beyond the magic. -/
structure VolumeHeader where
  volume : Nat
  identifier : Nat
deriving Repr, DecidableEq, Inhabited

/-- `VolumeHeader.__init__` (`partimage.py`): read 512 bytes (raising a
`PartImageException` when truncated), compare the 32-byte magic (raising
`WrongImageFile` carrying the buffer — `wrongImageFile` is modelled from
the spec, see `NtfsHeaderErr`), skip the 64-byte version string and unpack
`'<LQ'`. -/
def volumeHeaderOpen (image : List Nat) : Except PartImageErr VolumeHeader :=
  let buffer := image.take 512
  if buffer.length < 512 then .error .truncated
  else if buffer.take 32 ≠ PARTIMAGE then .error (.wrongImageFile buffer)
  else .ok ⟨readLE (slice buffer 96 100), readLE (slice buffer 100 108)⟩

/-- `self.max_block_range = (1 << 18) // block_size`
(`PartImage.blockReader`, line 769). -/
def max_block_range (block_size : Nat) : Nat := (1 <<< 18) / block_size

/-- The first within-byte loop of `PartImage.usedBlocksRange`
(`while bit_idx < 8`, also reused for the `for bit_idx in range(8)` loop
over the first nonzero byte): walk the bits of `byte` from `bit_idx`,
growing a run; return `Sum.inl` on the source's early `return` (a clear bit
after a run) and `Sum.inr` with the final state on fall-through.
`fuel` is `8 - bit_idx`. -/
def scanBits (byte byte_idx : Nat) : Nat → Nat → Int → Nat → (Int × Nat) ⊕ (Int × Nat)
  | 0, _, start_idx, length => Sum.inr (start_idx, length)
  | fuel + 1, bit_idx, start_idx, length =>
    if byte.testBit bit_idx then
      if length = 0 then
        scanBits byte byte_idx fuel (bit_idx + 1) (((8 * byte_idx + bit_idx : Nat) : Int)) 1
      else scanBits byte byte_idx fuel (bit_idx + 1) start_idx (length + 1)
    else
      if length ≠ 0 then Sum.inl (start_idx, length)
      else scanBits byte byte_idx fuel (bit_idx + 1) start_idx length

/-- The zero-byte skipping loop of `PartImage.usedBlocksRange`
(`while byte_idx < len(bitmap) and bitmap[byte_idx] == 0`). -/
def skipZeros (bitmap : List Nat) : Nat → Nat → Nat
  | 0, byte_idx => byte_idx
  | fuel + 1, byte_idx =>
    if byte_idx < bitmap.length ∧ bitmap.getD byte_idx 0 = 0 then
      skipZeros bitmap fuel (byte_idx + 1)
    else byte_idx

/-- The `0xff`-byte loop of `PartImage.usedBlocksRange`
(`while byte_idx < len(bitmap) and bitmap[byte_idx] == 0xff`), capping the
run at `max_range`. -/
def scanFF (bitmap : List Nat) (max_range : Nat) :
    Nat → Nat → Int → Nat → (Int × Nat) ⊕ (Nat × Nat)
  | 0, byte_idx, _, length => Sum.inr (byte_idx, length)
  | fuel + 1, byte_idx, start_idx, length =>
    if byte_idx < bitmap.length ∧ bitmap.getD byte_idx 0 = 255 then
      if max_range ≤ length + 8 then Sum.inl (start_idx, max_range)
      else scanFF bitmap max_range fuel (byte_idx + 1) start_idx (length + 8)
    else Sum.inr (byte_idx, length)

/-- The final `for bit_idx in range(8): if set: length += 1 else: break`
loop of `PartImage.usedBlocksRange`: count the consecutive set low bits. -/
def countLowAux (byte : Nat) : Nat → Nat → Nat
  | 0, _ => 0
  | fuel + 1, bit_idx => if byte.testBit bit_idx then 1 + countLowAux byte fuel (bit_idx + 1) else 0

def countLow (byte : Nat) : Nat := countLowAux byte 8 0

/-- The common tail of `PartImage.usedBlocksRange` (the `0xff`-byte loop,
the end-of-bitmap return, and the final partial byte with the
`min(length, max_block_range)` cap). -/
def ubrTail (bitmap : List Nat) (max_range : Nat) (byte_idx : Nat) (start_idx : Int)
    (length : Nat) : Int × Nat :=
  match scanFF bitmap max_range (bitmap.length + 1) byte_idx start_idx length with
  | Sum.inl res => res
  | Sum.inr (byte_idx2, length2) =>
    if bitmap.length ≤ byte_idx2 then (start_idx, length2)
    else (start_idx, min (length2 + countLow (bitmap.getD byte_idx2 0)) max_range)

/-- Sections 2-4 of `PartImage.usedBlocksRange`: when no run was started in
the first byte (`length = 0`), skip zero bytes, return `(start_idx, length)`
at the end of the bitmap, otherwise scan the first nonzero byte
(`for bit_idx in range(8)`), with early return; runs that reach a byte
boundary continue into `ubrTail`.  When a run was started in the first byte
(`length ≠ 0`), go directly to `ubrTail`. -/
def ubrSec2 (bitmap : List Nat) (max_range : Nat) (byte_idx : Nat) (start_idx : Int)
    (length : Nat) : Int × Nat :=
  if length = 0 then
    if bitmap.length ≤ skipZeros bitmap bitmap.length byte_idx then (start_idx, length)
    else
      match scanBits (bitmap.getD (skipZeros bitmap bitmap.length byte_idx) 0)
          (skipZeros bitmap bitmap.length byte_idx) 8 0 start_idx length with
      | Sum.inl res => res
      | Sum.inr (s, l) =>
        ubrTail bitmap max_range (skipZeros bitmap bitmap.length byte_idx + 1) s l
  else ubrTail bitmap max_range byte_idx start_idx length

/-- `PartImage.usedBlocksRange(idx)` (`partimage.py`, lines 675-745):
returns `(-1, 0)` when no further used block exists, otherwise the start of
the next run of used blocks and a (supposedly capped) run length.  The
first (masked) byte is scanned with `scanBits`; on fall-through the
remaining sections run as `ubrSec2`.
Precondition of the source (`assert byte_idx < len(self.bitmap)`): `idx`
lies within the bitmap. -/
def usedBlocksRange (bitmap : List Nat) (max_range : Nat) (idx : Nat) : Int × Nat :=
  match (if (bitmap.getD (idx / 8) 0) &&& (((1 <<< (idx % 8)) - 1) ^^^ 255) ≠ 0 then
      scanBits ((bitmap.getD (idx / 8) 0) &&& (((1 <<< (idx % 8)) - 1) ^^^ 255)) (idx / 8)
        (8 - idx % 8) (idx % 8) (-1) 0
    else Sum.inr (-1, 0)) with
  | Sum.inl res => res
  | Sum.inr (start_idx, length) => ubrSec2 bitmap max_range (idx / 8 + 1) start_idx length

/-- The first 106 bytes of a partclone header: magic, version string,
image-format version `"0002"`, little-endian marker `0xc0de`, empty fs-type,
`total_size = 4096`, `total_blocks = 8`, `used_blocks = 8`,
`used_bitmap = 8`, `block_size = 512`, no checksums, `bitmap_mode = BIT`. -/
def wimgHeader : List Nat :=
  PARTCLONE ++ [0] ++ List.replicate 14 0 ++ [48, 48, 48, 50] ++ [0xde, 0xc0]
  ++ List.replicate 16 0
  ++ leBytes 4096 8 ++ leBytes 8 8 ++ leBytes 8 8 ++ leBytes 8 8
  ++ leBytes 512 4 ++ leBytes 0 4 ++ leBytes 2 2 ++ leBytes 64 2
  ++ leBytes 0 2 ++ leBytes 0 2 ++ leBytes 0 4 ++ [0] ++ [1]

/-- A complete, well-formed partclone image: header with its CRC, a one-byte
all-used bitmap, and the bitmap CRC. -/
def wimg : List Nat :=
  wimgHeader ++ leBytes (crc32 wimgHeader CRC32_SEED) 4 ++ [255]
  ++ leBytes (crc32 [255] CRC32_SEED) 4

/-- The `PartClone` state resulting from opening `wimg`. -/
def wpc : PartClone := (partCloneOpen wimg 1024).toOption.getD default

/-- A bitmap-based image for exercising `getBlockOffset`: 16 blocks, all in
use, 512-byte blocks, a 4-byte checksum every 2 blocks, data at offset 100. -/
def c1img : Image := ⟨[255, 255], 512, 4, 2, 8, 100, 8192, 16⟩

/-- An image whose `total_blocks = 9` is not a multiple of 8: the bitmap has
two bytes and its masked bits 9..15 are clear. -/
def c6img : Image := ⟨[255, 1], 512, 0, 0, 1024, 0, 4608, 9⟩

/-- A one-block image whose single stored block sits at offset 7 of the
underlying file. -/
def c10img : Image := ⟨[1], 4, 0, 0, 8, 7, 4, 1⟩

/-- `n` ntfsclone `0x01` commands, each followed by one cluster of zeros. -/
def oneCmds : Nat → Nat → List Nat
  | 0, _ => []
  | n + 1, cs => 1 :: (List.replicate cs 0 ++ oneCmds n cs)

/-- The ntfsclone command stream `[0, 10] [1]×3 [0, 5] [1]×2` of the spec's
scenario, with cluster size `cs`. -/
def c8file (cs : Nat) : List Nat :=
  0 :: leBytes 10 8 ++ oneCmds 3 cs ++ 0 :: leBytes 5 8 ++ oneCmds 2 cs

/-- The cluster ranges the source actually builds for `c8file 4` starting at
`offset_to_image_data = 56`: the first stored payload sits at
`56 + 9 + 1 = 66` (after the 9-byte `[0, count]` record and the command
byte), the second used run at `66 + 3*(4+1) + 9 = 90`. -/
def c8ranges : List ClusterRange :=
  [⟨false, 0, 10, -1⟩, ⟨true, 10, 3, 66⟩, ⟨false, 13, 5, -1⟩, ⟨true, 18, 2, 90⟩]

/-- A single unused range covering `[0, 10)`. -/
def c9ranges : List ClusterRange := [⟨false, 0, 10, -1⟩]

/-- A single unused range covering `[0, 5)` (for an image with
`nr_clusters = 5`). -/
def c6ranges : List ClusterRange := [⟨false, 0, 5, -1⟩]

/-- 110 bytes starting with the ntfsclone magic: what `PartClone.__init__`
reads when pointed at an ntfsclone image. -/
def ntfsProbe110 : List Nat := NTFSCLONE ++ List.replicate 94 0

/-- 50 bytes starting with the partclone magic: what `NtfsClone.__init__`
reads when pointed at a partclone image. -/
def partcloneProbe50 : List Nat := PARTCLONE ++ List.replicate 35 0

/-- 512 bytes starting with the ntfsclone magic: what
`VolumeHeader.__init__` reads when pointed at an ntfsclone image. -/
def junkProbe512 : List Nat := NTFSCLONE ++ List.replicate 496 0

/-!
## Correctness of the sparse block index (C1 machinery)
-/

theorem BITS_SET_zero : BITS_SET 0 = 0 := by decide

theorem popList_append (l₁ l₂ : List Nat) :
    popList (l₁ ++ l₂) = popList l₁ + popList l₂ := by
  simp [popList]

theorem inuseSum_eq_popList (l : List Nat) : inuseSum l = popList l := by
  induction l with
  | nil => rfl
  | cons b rest ih =>
    by_cases hb : b = 0
    · subst hb
      simpa [inuseSum, popList, BITS_SET_zero] using ih
    · simpa [inuseSum, popList, hb] using ih

/-- Closed form of the index state's `file_offset` after `p` in-use blocks
have been accounted for. -/
def foOf (start bs cs cb p : Nat) : Nat :=
  start + bs * p + (if cb ≠ 0 then cs * (p / cb) else 0)

/-- Closed form of the index state's `blocks_chksum` after `p` in-use
blocks. -/
def bcOf (cb p : Nat) : Nat := if cb ≠ 0 then p % cb else p

theorem div_split (cb p u : Nat) (h : 0 < cb) :
    (p + u) / cb = p / cb + (p % cb + u) / cb := by
  conv_lhs => rw [← Nat.mod_add_div p cb]
  rw [show p % cb + cb * (p / cb) + u = p % cb + u + cb * (p / cb) by ring,
    Nat.add_mul_div_left _ _ h]
  exact Nat.add_comm _ _

theorem state_fo (start bs cs cb p u : Nat) :
    (if cb ≠ 0 ∧ cb ≤ bcOf cb p + u
     then foOf start bs cs cb p + bs * u + cs * ((bcOf cb p + u) / cb)
     else foOf start bs cs cb p + bs * u) = foOf start bs cs cb (p + u) := by
  by_cases hcb : cb = 0
  · subst hcb
    simp [foOf, bcOf]
    ring
  · have hcb' : 0 < cb := Nat.pos_of_ne_zero hcb
    by_cases hge : cb ≤ bcOf cb p + u
    · rw [if_pos ⟨hcb, hge⟩]
      simp only [foOf, bcOf, if_pos hcb] at *
      rw [div_split cb p u hcb']
      ring
    · rw [if_neg (by tauto)]
      simp only [foOf, bcOf, if_pos hcb] at *
      have h0 : (p % cb + u) / cb = 0 := Nat.div_eq_of_lt (by omega)
      rw [div_split cb p u hcb', h0]
      ring

theorem state_bc (cb p u : Nat) :
    (if cb ≠ 0 ∧ cb ≤ bcOf cb p + u then (bcOf cb p + u) % cb else bcOf cb p + u)
      = bcOf cb (p + u) := by
  by_cases hcb : cb = 0
  · subst hcb; simp [bcOf]
  · by_cases hge : cb ≤ bcOf cb p + u
    · rw [if_pos ⟨hcb, hge⟩]
      simp only [bcOf, if_pos hcb] at *
      exact Nat.mod_add_mod p cb u ▸ rfl
    · rw [if_neg (by tauto)]
      simp only [bcOf, if_pos hcb] at *
      rw [show (p + u) % cb = (p % cb + u) % cb by rw [Nat.mod_add_mod]]
      exact (Nat.mod_eq_of_lt (by omega)).symm

theorem foOf_mono (start bs cs cb : Nat) {p q : Nat} (h : p ≤ q) :
    foOf start bs cs cb p ≤ foOf start bs cs cb q := by
  have h1 : bs * p ≤ bs * q := Nat.mul_le_mul_left bs h
  have h2 : cs * (p / cb) ≤ cs * (q / cb) :=
    Nat.mul_le_mul_left cs (Nat.div_le_div_right h)
  by_cases hcb : cb = 0 <;> simp [foOf, hcb] <;> omega

theorem foOf_inj (start bs cs cb : Nat) (hbs : 0 < bs) {p q : Nat}
    (h : foOf start bs cs cb p = foOf start bs cs cb q) : p = q := by
  by_contra hne
  rcases Nat.lt_or_ge p q with hlt | hge
  · have h1 : bs * p < bs * q := Nat.mul_lt_mul_of_pos_left hlt hbs
    have h2 : cs * (p / cb) ≤ cs * (q / cb) :=
      Nat.mul_le_mul_left cs (Nat.div_le_div_right (le_of_lt hlt))
    by_cases hcb : cb = 0 <;> simp [foOf, hcb] at h <;> omega
  · have hlt : q < p := by omega
    have h1 : bs * q < bs * p := Nat.mul_lt_mul_of_pos_left hlt hbs
    have h2 : cs * (q / cb) ≤ cs * (p / cb) :=
      Nat.mul_le_mul_left cs (Nat.div_le_div_right (le_of_lt hlt))
    by_cases hcb : cb = 0 <;> simp [foOf, hcb] at h <;> omega

theorem buildAux_get (sb bs cs cb start : Nat) (hsb : 0 < sb) (hbs : 0 < bs) :
    ∀ (fuel : Nat) (bm : List Nat) (p : Nat) (bo : BlockOffset) (i : Nat),
      bm.length ≤ fuel →
      i * sb < bm.length →
      bo.file_offset ≤ foOf start bs cs cb p →
      (bo.file_offset = foOf start bs cs cb p → bo = ⟨foOf start bs cs cb p, bcOf cb p⟩) →
      (buildBlockIndexAux sb bs cs cb fuel bm (foOf start bs cs cb p) (bcOf cb p) bo)[i]?
        = some ⟨foOf start bs cs cb (p + popList (bm.take (i * sb))),
                bcOf cb (p + popList (bm.take (i * sb)))⟩ := by
  intro fuel
  induction fuel with
  | zero =>
    intro bm p bo i h1 h2 _ _
    omega
  | succ f ih =>
    intro bm p bo i h1 h2 hle heq
    have hlen : 0 < bm.length := by
      have : 0 ≤ i * sb := Nat.zero_le _
      omega
    have hbm : bm.isEmpty = false := by
      cases bm with
      | nil => simp at hlen
      | cons a l => rfl
    rw [buildBlockIndexAux]
    simp only [hbm, Bool.false_eq_true, if_false]
    have hbo : (if foOf start bs cs cb p ≠ bo.file_offset then
        (⟨foOf start bs cs cb p, bcOf cb p⟩ : BlockOffset) else bo)
        = ⟨foOf start bs cs cb p, bcOf cb p⟩ := by
      by_cases hfo : foOf start bs cs cb p = bo.file_offset
      · rw [if_neg (by simpa using hfo), heq hfo.symm]
      · rw [if_pos hfo]
    rw [hbo, inuseSum_eq_popList]
    set u := popList (bm.take sb) with hu
    rw [show bcOf cb p + u = bcOf cb p + u from rfl]
    rw [state_fo start bs cs cb p u, state_bc cb p u]
    cases i with
    | zero =>
      simp [popList]
    | succ i =>
      rw [List.getElem?_cons_succ]
      have hmul : (i + 1) * sb = sb + i * sb := by ring
      have htake : bm.take ((i+1) * sb) = bm.take sb ++ (bm.drop sb).take (i * sb) := by
        rw [hmul, List.take_add]
      rw [htake, popList_append, ← hu, ← Nat.add_assoc]
      refine ih (bm.drop sb) (p + u) ⟨foOf start bs cs cb p, bcOf cb p⟩ i ?_ ?_ ?_ ?_
      · rw [List.length_drop]; omega
      · rw [List.length_drop]; omega
      · exact foOf_mono start bs cs cb (Nat.le_add_right p u)
      · intro hfo
        have hpq : p = p + u := foOf_inj start bs cs cb hbs hfo
        rw [← hpq]

theorem buildBlockIndex_get (img : Image) (hbs : 0 < img.block_size)
    (hbos8 : img.block_offset_size % 8 = 0) (hbos : 0 < img.block_offset_size)
    (i : Nat) (hi : i * (img.block_offset_size / 8) < img.bitmap.length) :
    (buildBlockIndex img)[i]? = some
      ⟨foOf img.blocks_section img.block_size img.checksum_size img.checksum_blocks
          (popList (img.bitmap.take (i * (img.block_offset_size / 8)))),
        bcOf img.checksum_blocks
          (popList (img.bitmap.take (i * (img.block_offset_size / 8))))⟩ := by
  have hsb : 0 < img.block_offset_size / 8 := Nat.div_pos (by omega) (by norm_num)
  have h0 : foOf img.blocks_section img.block_size img.checksum_size img.checksum_blocks 0
      = img.blocks_section := by
    simp [foOf]
  have hb0 : bcOf img.checksum_blocks 0 = 0 := by simp [bcOf]
  have key := buildAux_get (img.block_offset_size / 8) img.block_size img.checksum_size
    img.checksum_blocks img.blocks_section hsb hbs img.bitmap.length img.bitmap 0
    ⟨foOf img.blocks_section img.block_size img.checksum_size img.checksum_blocks 0,
      bcOf img.checksum_blocks 0⟩ i (le_refl _) hi (le_refl _) (fun _ => rfl)
  rw [h0, hb0] at key
  simpa [buildBlockIndex] using key

theorem BITS_SET_mod (b : Nat) : BITS_SET b = BITS_SET (b % 256) := by
  unfold BITS_SET
  congr 1
  apply List.filter_congr
  intro i hi
  have h8 : i < 8 := List.mem_range.mp hi
  rw [show (256 : Nat) = 2 ^ 8 from rfl, Nat.testBit_mod_two_pow]
  simp [h8]

theorem testBit_mod256 (b i : Nat) (h : i < 8) : (b % 256).testBit i = b.testBit i := by
  rw [show (256 : Nat) = 2 ^ 8 from rfl, Nat.testBit_mod_two_pow]
  simp [h]

theorem land_mod256 (b m : Nat) (hm : m < 256) : b &&& m = (b % 256) &&& m := by
  apply Nat.eq_of_testBit_eq
  intro i
  rw [Nat.testBit_and, Nat.testBit_and]
  by_cases hi : i < 8
  · rw [testBit_mod256 _ _ hi]
  · have hmi : m.testBit i = false := by
      apply Nat.testBit_lt_two_pow
      calc m < 256 := hm
        _ = 2 ^ 8 := rfl
        _ ≤ 2 ^ i := Nat.pow_le_pow_right (by norm_num) (by omega)
    simp [hmi]

theorem land255 (b : Nat) : b &&& 255 = b % 256 := by
  apply Nat.eq_of_testBit_eq
  intro i
  rw [Nat.testBit_and, show (255 : Nat) = 2 ^ 8 - 1 from rfl,
    Nat.testBit_two_pow_sub_one, show (256 : Nat) = 2 ^ 8 from rfl,
    Nat.testBit_mod_two_pow]
  cases h : b.testBit i <;> simp

set_option maxRecDepth 4000 in
theorem bitsSet_mask_succ_bounded : ∀ b < 256, ∀ r < 8,
    BITS_SET (b &&& (2 ^ (r + 1) - 1)) =
      BITS_SET (b &&& (2 ^ r - 1)) + (if b.testBit r then 1 else 0) := by decide

theorem bitsSet_mask_succ (b r : Nat) (hr : r < 8) :
    BITS_SET (b &&& (2 ^ (r + 1) - 1)) =
      BITS_SET (b &&& (2 ^ r - 1)) + (if b.testBit r then 1 else 0) := by
  have hp1 : (2 : Nat) ^ (r + 1) - 1 < 256 := by
    have : (2 : Nat) ^ (r + 1) ≤ 2 ^ 8 := Nat.pow_le_pow_right (by norm_num) (by omega)
    omega
  have hp2 : (2 : Nat) ^ r - 1 < 256 := by
    have : (2 : Nat) ^ r ≤ 2 ^ 8 := Nat.pow_le_pow_right (by norm_num) (by omega)
    omega
  rw [land_mod256 b _ hp1, land_mod256 b _ hp2, ← testBit_mod256 b r hr]
  exact bitsSet_mask_succ_bounded (b % 256) (Nat.mod_lt _ (by norm_num)) r hr

theorem scanPop_succ (bm : List Nat) (k : Nat) :
    scanPop bm (k + 1) = scanPop bm k + (if usedAt bm k then 1 else 0) := by
  unfold scanPop
  rw [List.range_succ, List.filter_append, List.length_append]
  cases h : usedAt bm k <;> simp [h]

theorem popList_take_succ (bm : List Nat) (a : Nat) :
    popList (bm.take (a + 1)) = popList (bm.take a) + BITS_SET (bm.getD a 0) := by
  by_cases ha : a < bm.length
  · rw [List.take_succ, popList_append]
    rw [List.getElem?_eq_getElem ha]
    simp [popList, List.getD, List.getElem?_eq_getElem ha]
  · rw [List.take_of_length_le (by omega), List.take_of_length_le (by omega),
      List.getD_eq_default _ _ (by omega), BITS_SET_zero]
    simp

/-- Decomposition of the `scanPop` linear scan at block `k` into whole bytes
plus the masked final byte, matching the expression in `getBlockOffset`. -/
theorem scanPop_byte (bm : List Nat) (k : Nat) :
    scanPop bm k = popList (bm.take (k / 8))
      + BITS_SET ((bm.getD (k / 8) 0) &&& (2 ^ (k % 8) - 1)) := by
  induction k with
  | zero =>
    simp [scanPop, popList, BITS_SET_zero]
  | succ k ih =>
    rw [scanPop_succ, ih]
    rcases Nat.lt_or_ge (k % 8) 7 with hr | hr
    · have e1 : (k + 1) / 8 = k / 8 := by omega
      have e2 : (k + 1) % 8 = k % 8 + 1 := by omega
      rw [e1, e2, bitsSet_mask_succ _ _ (by omega)]
      unfold usedAt
      omega
    · have hr7 : k % 8 = 7 := by omega
      have e1 : (k + 1) / 8 = k / 8 + 1 := by omega
      have e2 : (k + 1) % 8 = 0 := by omega
      rw [e1, e2, hr7, popList_take_succ]
      have h7 := bitsSet_mask_succ (bm.getD (k / 8) 0) 7 (by omega)
      rw [show (2 : Nat) ^ (7 + 1) - 1 = 255 from rfl] at h7
      rw [land255, ← BITS_SET_mod] at h7
      unfold usedAt
      rw [hr7]
      simp only [pow_zero, Nat.sub_self, Nat.and_zero, BITS_SET_zero]
      omega

theorem popList_take_split (bm : List Nat) {a b : Nat} (h : a ≤ b) :
    popList (bm.take b) = popList (bm.take a) + popList (slice bm a b) := by
  rw [show b = a + (b - a) by omega, List.take_add, popList_append]
  simp [slice]

/-- C1 workhorse: on a used, in-bitmap block the sparse-index lookup of
`getBlockOffset` computes exactly the linear-scan offset. -/
theorem getBlockOffset_eq_scan (img : Image) (k : Nat)
    (hbs : 0 < img.block_size)
    (hbos8 : img.block_offset_size % 8 = 0)
    (hbos : 0 < img.block_offset_size)
    (hk : k / 8 < img.bitmap.length)
    (hbit : usedAt img.bitmap k = true) :
    getBlockOffset img k = .ok (some (scanOffset img k)) := by
  have hbi : blockInUse img k = .ok true := by
    unfold blockInUse
    rw [if_neg (by omega)]
    unfold usedAt at hbit
    rw [hbit]
  unfold getBlockOffset
  rw [hbi]
  dsimp only
  set sb := img.block_offset_size / 8 with hsbdef
  have hsb : 0 < sb := Nat.div_pos (by omega) (by norm_num)
  have hbs8 : img.block_offset_size = 8 * sb := by omega
  set boi := k / img.block_offset_size with hboidef
  have hboi' : boi = (k / 8) / sb := by
    rw [hboidef, hbs8, Nat.div_div_eq_div_mul]
  have hle : boi * sb ≤ k / 8 := by
    rw [hboi']
    exact Nat.div_mul_le_self _ _
  have hlt : boi * sb < img.bitmap.length := lt_of_le_of_lt hle hk
  have hidx := buildBlockIndex_get img hbs hbos8 hbos boi hlt
  set P := popList (img.bitmap.take (boi * sb)) with hP
  have hgd : (buildBlockIndex img).getD boi ⟨0, 0⟩ =
      ⟨foOf img.blocks_section img.block_size img.checksum_size img.checksum_blocks P,
        bcOf img.checksum_blocks P⟩ := by
    rw [List.getD_eq_getElem?_getD, hidx]
    rfl
  rw [hgd, inuseSum_eq_popList]
  set u := popList (slice img.bitmap (boi * sb) (k / 8))
      + BITS_SET ((img.bitmap.getD (k / 8) 0) &&& ((1 <<< (k % 8)) - 1)) with hu
  have hkey : P + u = scanPop img.bitmap k := by
    rw [hu, Nat.one_shiftLeft, ← Nat.add_assoc, ← popList_take_split _ hle]
    exact (scanPop_byte img.bitmap k).symm
  have hfin := state_fo img.blocks_section img.block_size img.checksum_size
    img.checksum_blocks P u
  rw [hkey] at hfin
  rw [hfin]
  unfold foOf scanOffset
  rfl

/-!
## PartClone construction invariants (C2/C3 machinery)
-/

theorem byte_eq_zero {b : Nat} (hb : b < 256) (h : ∀ i, i < 8 → b.testBit i = false) :
    b = 0 := by
  apply Nat.eq_of_testBit_eq
  intro i
  rcases Nat.lt_or_ge i 8 with hi | hi
  · simp [h i hi]
  · rw [Nat.zero_testBit]
    have h28 : (256 : Nat) ≤ 2 ^ i := by
      calc (256 : Nat) = 2 ^ 8 := by norm_num
        _ ≤ 2 ^ i := Nat.pow_le_pow_right (by norm_num) hi
    exact Nat.testBit_lt_two_pow (lt_of_lt_of_le hb h28)

theorem getD_last (l : List Nat) : l.getD (l.length - 1) 0 = l.getLastD 0 := by
  rw [List.getLastD_eq_getLast?, List.getLast?_eq_getElem?, List.getD_eq_getElem?_getD]

theorem maskFinalByte_length (bm : List Nat) (tb : Nat) (h : tb % 8 ≠ 0 → bm ≠ []) :
    (maskFinalByte bm tb).length = bm.length := by
  unfold maskFinalByte
  by_cases hm : tb % 8 = 0
  · simp [hm]
  · rw [if_pos hm]
    split
    · rw [List.length_append, List.length_dropLast]
      have : bm ≠ [] := h hm
      have : 0 < bm.length := List.length_pos.mpr this
      simp
      omega
    · rfl

/-- Any block number at or past `total_blocks` reads as *not in use* from
the masked bitmap. -/
theorem maskFinal_clear (bm : List Nat) (tb : Nat) (hlen : bm.length = (tb + 7) / 8) :
    ∀ j, tb ≤ j → usedAt (maskFinalByte bm tb) j = false := by
  intro j hj
  unfold usedAt maskFinalByte
  by_cases hm : tb % 8 = 0
  · rw [if_neg (by omega)]
    have hlen8 : bm.length = tb / 8 := by omega
    have hge : bm.length ≤ j / 8 := by omega
    rw [List.getD_eq_default _ _ hge, Nat.zero_testBit]
  · rw [if_pos hm]
    have hlen8 : bm.length = tb / 8 + 1 := by omega
    have hne : bm ≠ [] := by
      intro hemp
      rw [hemp] at hlen8
      simp at hlen8
    rcases Nat.lt_or_ge (j / 8) bm.length with hjlen | hjlen
    · have hj8 : j / 8 = bm.length - 1 := by omega
      have hjm : tb % 8 ≤ j % 8 := by omega
      have hmask : ∀ r, tb % 8 ≤ r →
          (bm.getLastD 0 &&& ((1 <<< (tb % 8)) - 1)).testBit r = false := by
        intro r hr
        rw [Nat.testBit_and, Nat.one_shiftLeft, Nat.testBit_two_pow_sub_one]
        simp [Nat.not_lt.mpr hr]
      split
      · rw [hj8]
        have hlast : (bm.dropLast ++ [bm.getLastD 0 &&& ((1 <<< (tb % 8)) - 1)]).getD
            (bm.length - 1) 0 = bm.getLastD 0 &&& ((1 <<< (tb % 8)) - 1) := by
          rw [List.getD_eq_getElem?_getD,
            List.getElem?_append_right (by rw [List.length_dropLast]),
            List.length_dropLast]
          simp
        rw [hlast]
        exact hmask _ hjm
      · rename_i hsame
        have hsame' : bm.getLastD 0 &&& ((1 <<< (tb % 8)) - 1) = bm.getLastD 0 := by
          by_contra hc
          exact hsame hc
        rw [hj8, getD_last, ← hsame']
        exact hmask _ hjm
    · split
      · have hlen' : (bm.dropLast ++ [bm.getLastD 0 &&& ((1 <<< (tb % 8)) - 1)]).length
            = bm.length := by
          rw [List.length_append, List.length_dropLast]
          have : 0 < bm.length := List.length_pos.mpr hne
          simp
          omega
        rw [List.getD_eq_default _ _ (by omega), Nat.zero_testBit]
      · rw [List.getD_eq_default _ _ (by omega), Nat.zero_testBit]

/-- Inversion of a successful `partCloneOpen`: the stored bitmap is the
masked raw bitmap, its length matches `ceil(total_blocks / 8)`, its
popcount passed the `usedBlocks()` comparison, and the header CRC check
passed. -/
theorem partCloneOpen_ok_spec (image : List Nat) (bos : Nat) (pc : PartClone)
    (h : partCloneOpen image bos = .ok pc) :
    pc.bitmap = maskFinalByte (slice image 110 (110 + (pc.fs_total_blocks + 7) / 8))
        pc.fs_total_blocks ∧
    (slice image 110 (110 + (pc.fs_total_blocks + 7) / 8)).length
        = (pc.fs_total_blocks + 7) / 8 ∧
    popList pc.bitmap = max pc.fs_used_bitmap pc.fs_used_blocks ∧
    pc.header_crc32 = crc32 ((image.take 110).take 106) CRC32_SEED := by
  unfold partCloneOpen at h
  split at h
  · exact absurd h (by simp)
  split at h
  · exact absurd h (by simp)
  split at h
  · exact absurd h (by simp)
  split at h
  · exact absurd h (by simp)
  split at h
  · exact absurd h (by simp)
  split at h
  · exact absurd h (by simp)
  rename_i hmagic hver hend hlen hmode hcrc
  unfold pcReadBitmap at h
  split at h
  · exact absurd h (by simp)
  split at h
  · exact absurd h (by simp)
  split at h
  · exact absurd h (by simp)
  split at h
  · exact absurd h (by simp)
  rename_i hblen hbcrc hbos hcount
  rw [Except.ok.injEq] at h
  subst h
  dsimp only
  unfold pcBitmapRaw at hblen
  refine ⟨rfl, by omega, ?_, by omega⟩
  rw [← inuseSum_eq_popList]
  omega

/-- **C2**: PartClone construction masks off any bits past `total_blocks`
in the final bitmap byte, and it succeeds only when the popcount of the
masked bitmap equals `max(fs_used_blocks, fs_used_bitmap)`; for every
successfully opened image, `usedBlocks()` returns that max and equals the
popcount of the bitmap. -/
theorem C2_partclone_bitmap_invariant (image : List Nat) (bos : Nat) (pc : PartClone)
    (h : partCloneOpen image bos = .ok pc) :
    pc.bitmap = maskFinalByte (slice image 110 (110 + (pc.fs_total_blocks + 7) / 8))
        pc.fs_total_blocks ∧
    PartClone.usedBlocks pc = max pc.fs_used_bitmap pc.fs_used_blocks ∧
    popList pc.bitmap = PartClone.usedBlocks pc ∧
    ∀ j, pc.fs_total_blocks ≤ j → usedAt pc.bitmap j = false := by
  obtain ⟨h1, h2, h3, _⟩ := partCloneOpen_ok_spec image bos pc h
  refine ⟨h1, rfl, h3, ?_⟩
  rw [h1]
  exact maskFinal_clear _ _ h2

set_option maxRecDepth 100000 in
/-- Witness for C2: the concrete image `wimg` opens successfully and
satisfies all conclusions. -/
theorem C2_witness :
    partCloneOpen wimg 1024 = .ok wpc ∧
    (wpc.bitmap = maskFinalByte (slice wimg 110 (110 + (wpc.fs_total_blocks + 7) / 8))
        wpc.fs_total_blocks ∧
      PartClone.usedBlocks wpc = max wpc.fs_used_bitmap wpc.fs_used_blocks ∧
      popList wpc.bitmap = PartClone.usedBlocks wpc ∧
      ∀ j, wpc.fs_total_blocks ≤ j → usedAt wpc.bitmap j = false) := by
  have h : partCloneOpen wimg 1024 = .ok wpc := rfl
  exact ⟨h, C2_partclone_bitmap_invariant wimg 1024 wpc h⟩

/-- C1 companion: the linear-scan offset, hence `getBlockOffset` on a used
block, does not depend on `block_offset_size`. -/
theorem getBlockOffset_stride_free (img : Image) (bos' : Nat) (k : Nat)
    (hbs : 0 < img.block_size)
    (hbos8 : img.block_offset_size % 8 = 0)
    (hbos : 0 < img.block_offset_size)
    (hbos8' : bos' % 8 = 0)
    (hbos' : 0 < bos')
    (hk : k / 8 < img.bitmap.length)
    (hbit : usedAt img.bitmap k = true) :
    getBlockOffset { img with block_offset_size := bos' } k = getBlockOffset img k := by
  rw [getBlockOffset_eq_scan img k hbs hbos8 hbos hk hbit,
    getBlockOffset_eq_scan { img with block_offset_size := bos' } k hbs hbos8' hbos' hk hbit]
  rfl

/-- **C1**: for every bitmap-based image and every in-use block number `k`,
`getBlockOffset(k)` (computed via the sparse `BlockOffset` index built by
`buildBlockIndex`) returns the offset a full linear scan of the bitmap from
the start of the data section would compute — `block_size` bytes per set
bit and `checksum_size` bytes after every `checksum_blocks` in-use blocks —
and hence the result does not depend on the index stride
`block_offset_size`. -/
theorem C1_index_refines_linear_scan (img : Image) (k : Nat)
    (hbs : 0 < img.block_size)
    (hbos8 : img.block_offset_size % 8 = 0)
    (hbos : 0 < img.block_offset_size)
    (hk : k / 8 < img.bitmap.length)
    (hbit : usedAt img.bitmap k = true) :
    getBlockOffset img k = .ok (some (scanOffset img k)) ∧
    ∀ bos', bos' % 8 = 0 → 0 < bos' →
      getBlockOffset { img with block_offset_size := bos' } k = getBlockOffset img k := by
  exact ⟨getBlockOffset_eq_scan img k hbs hbos8 hbos hk hbit,
    fun bos' h8 h0 => getBlockOffset_stride_free img bos' k hbs hbos8 hbos h8 h0 hk hbit⟩

/-- Witness for C1: the concrete image `c1img` at block 9, including a
stride change from 8 to 1024 bits. -/
theorem C1_witness :
    (0 < c1img.block_size ∧ c1img.block_offset_size % 8 = 0 ∧
      0 < c1img.block_offset_size ∧ 9 / 8 < c1img.bitmap.length ∧
      usedAt c1img.bitmap 9 = true) ∧
    getBlockOffset c1img 9 = .ok (some (scanOffset c1img 9)) ∧
    getBlockOffset { c1img with block_offset_size := 1024 } 9 = getBlockOffset c1img 9 := by
  refine ⟨by decide, ?_, ?_⟩
  · exact (C1_index_refines_linear_scan c1img 9 (by decide) (by decide) (by decide)
      (by decide) (by decide)).1
  · exact (C1_index_refines_linear_scan c1img 9 (by decide) (by decide) (by decide)
      (by decide) (by decide)).2 1024 (by decide) (by decide)

/-- **C4**: for every unused block number `k` (bitmap bit clear,
`k` within the partition), `getBlockOffset(k)` returns `None` and
`BlockIO.read_data(k * block_size, block_size)` returns a zero block. -/
theorem C4_unused_blocks_read_zero (img : Image) (file : List Nat) (k : Nat)
    (hbs : 0 < img.block_size)
    (hk8 : k / 8 < img.bitmap.length)
    (hbit : usedAt img.bitmap k = false)
    (hk : k < bioTotalBlocks img) :
    getBlockOffset img k = .ok none ∧
    read_data img file (k * img.block_size) img.block_size
      = .ok (List.replicate img.block_size 0) := by
  have hbi : blockInUse img k = .ok false := by
    unfold blockInUse
    rw [if_neg (by omega)]
    unfold usedAt at hbit
    rw [hbit]
  have hgbo : getBlockOffset img k = .ok none := by
    unfold getBlockOffset
    rw [hbi]
  refine ⟨hgbo, ?_⟩
  unfold read_data
  have hsz : ¬(bioTotalSize img < k * img.block_size + img.block_size) := by
    unfold bioTotalSize
    have : k + 1 ≤ bioTotalBlocks img := hk
    have h1 : (k + 1) * img.block_size ≤ bioTotalBlocks img * img.block_size :=
      Nat.mul_le_mul_right _ this
    have h2 : (k + 1) * img.block_size = k * img.block_size + img.block_size := by ring
    have h3 : bioTotalBlocks img * img.block_size = img.block_size * bioTotalBlocks img :=
      Nat.mul_comm _ _
    omega
  rw [if_neg hsz, if_pos (by omega : 0 < img.block_size)]
  have hmin : k * img.block_size / img.block_size = k := Nat.mul_div_cancel k hbs
  have hmax : (k * img.block_size + img.block_size - 1) / img.block_size = k := by
    have h1 : k * img.block_size + img.block_size - 1
        = (img.block_size - 1) + img.block_size * k := by
      have : 0 < img.block_size := hbs
      ring_nf
      omega
    rw [h1, Nat.add_mul_div_left _ _ hbs, Nat.div_eq_of_lt (by omega)]
    omega
  rw [hmin, hmax]
  have hrange : List.range' k (k + 1 - k) = [k] := by
    rw [show k + 1 - k = 1 by omega]
    simp
  dsimp only
  rw [hrange]
  unfold read_data_loop
  rw [hgbo]
  unfold read_data_loop
  have hidx2 : (k * img.block_size + img.block_size - 1) % img.block_size
      = img.block_size - 1 := by
    have h1 : k * img.block_size + img.block_size - 1
        = (img.block_size - 1) + img.block_size * k := by
      ring_nf
      omega
    rw [h1, Nat.add_mul_mod_self_left, Nat.mod_eq_of_lt (by omega)]
  simp only [if_pos rfl, hidx2, Nat.mul_mod_left]
  simp only [if_true, Nat.sub_zero, List.drop_zero, List.append_nil, List.take_replicate]
  unfold empty_block slice
  simp only [Nat.sub_zero, List.drop_zero, List.append_nil, List.take_replicate]
  have hmin' : min (img.block_size - 1 + 1) img.block_size = img.block_size := by omega
  rw [hmin']

set_option maxRecDepth 100000 in
/-- Witness for C4: block 0 of a two-block image whose first block is
unused. -/
theorem C4_witness :
    (0 < c1img.block_size ∧ 0 / 8 < ([2] : List Nat).length) ∧
    getBlockOffset { c1img with bitmap := [2], total_size := 1024, total_blocks := 2 } 0
      = .ok none ∧
    read_data { c1img with bitmap := [2], total_size := 1024, total_blocks := 2 }
      [7, 7, 7] 0 512 = .ok (List.replicate 512 0) := by
  refine ⟨by decide, ?_⟩
  have h := C4_unused_blocks_read_zero
    { c1img with bitmap := [2], total_size := 1024, total_blocks := 2 }
    [7, 7, 7] 0 (by decide) (by decide) (by decide) (by decide)
  exact ⟨h.1, h.2⟩

/-- **C10**: when the underlying image file yields fewer than `block_size`
bytes for a stored block, `read_data` does not raise — the
`ImageBackupException` constructed in the source is never raised — and the
short block is spliced into the result, which is then shorter than the
clamped requested size. -/
theorem C10_short_read_is_spliced (img : Image) (file : List Nat) (k o : Nat)
    (hbs : 0 < img.block_size)
    (hk : k < bioTotalBlocks img)
    (hgbo : getBlockOffset img k = .ok (some o))
    (ho : o ≤ file.length)
    (hshort : file.length < o + img.block_size) :
    read_data img file (k * img.block_size) img.block_size = .ok (file.drop o) ∧
    (file.drop o).length < img.block_size := by
  have hlen : (file.drop o).length < img.block_size := by
    rw [List.length_drop]
    omega
  refine ⟨?_, hlen⟩
  unfold read_data
  have hsz : ¬(bioTotalSize img < k * img.block_size + img.block_size) := by
    unfold bioTotalSize
    have : k + 1 ≤ bioTotalBlocks img := hk
    have h1 : (k + 1) * img.block_size ≤ bioTotalBlocks img * img.block_size :=
      Nat.mul_le_mul_right _ this
    have h2 : (k + 1) * img.block_size = k * img.block_size + img.block_size := by ring
    have h3 : bioTotalBlocks img * img.block_size = img.block_size * bioTotalBlocks img :=
      Nat.mul_comm _ _
    omega
  rw [if_neg hsz, if_pos (by omega : 0 < img.block_size)]
  have hmin : k * img.block_size / img.block_size = k := Nat.mul_div_cancel k hbs
  have hmax : (k * img.block_size + img.block_size - 1) / img.block_size = k := by
    have h1 : k * img.block_size + img.block_size - 1
        = (img.block_size - 1) + img.block_size * k := by
      ring_nf
      omega
    rw [h1, Nat.add_mul_div_left _ _ hbs, Nat.div_eq_of_lt (by omega)]
    omega
  rw [hmin, hmax]
  have hrange : List.range' k (k + 1 - k) = [k] := by
    rw [show k + 1 - k = 1 by omega]
    simp
  dsimp only
  rw [hrange]
  unfold read_data_loop
  rw [hgbo]
  unfold read_data_loop
  have hidx2 : (k * img.block_size + img.block_size - 1) % img.block_size
      = img.block_size - 1 := by
    have h1 : k * img.block_size + img.block_size - 1
        = (img.block_size - 1) + img.block_size * k := by
      ring_nf
      omega
    rw [h1, Nat.add_mul_mod_self_left, Nat.mod_eq_of_lt (by omega)]
  simp only [if_pos rfl, hidx2, Nat.mul_mod_left]
  have hblock : slice file o (o + img.block_size) = file.drop o := by
    unfold slice
    rw [show o + img.block_size - o = img.block_size by omega]
    exact List.take_of_length_le (by rw [List.length_drop]; omega)
  rw [hblock]
  unfold slice
  simp only [if_true, Nat.sub_zero, List.drop_zero, List.append_nil]
  rw [List.take_of_length_le (by rw [List.length_drop]; omega)]

set_option maxRecDepth 100000 in
/-- Witness for C10: the one-block image `c10img` whose stored block starts
at offset 7 of a 9-byte file, so only 2 of 4 bytes exist. -/
theorem C10_witness :
    (0 < c10img.block_size ∧ 0 < bioTotalBlocks c10img ∧
      getBlockOffset c10img 0 = .ok (some 7) ∧ 7 ≤ ([9, 9, 9, 9, 9, 9, 9, 9, 9] : List Nat).length ∧
      ([9, 9, 9, 9, 9, 9, 9, 9, 9] : List Nat).length < 7 + c10img.block_size) ∧
    read_data c10img [9, 9, 9, 9, 9, 9, 9, 9, 9] 0 c10img.block_size = .ok [9, 9] ∧
    ([9, 9] : List Nat).length < c10img.block_size := by
  refine ⟨by decide, ?_⟩
  have h := C10_short_read_is_spliced c10img [9, 9, 9, 9, 9, 9, 9, 9, 9] 0 7 (by decide)
    (by decide) (by decide) (by decide) (by decide)
  exact ⟨h.1, h.2⟩

set_option maxRecDepth 100000 in
/-- Counterexample to C3: the concrete image `wimg` is *accepted* by
`PartClone.__init__` although its stored `header_crc32` differs from the
standard IEEE CRC32 (final XOR `0xffffffff`) of the first 106 header
bytes — the source compares against the table-driven CRC *without* the
final XOR. -/
theorem C3_counterexample :
    partCloneOpen wimg 1024 = .ok wpc ∧
    pcField (wimg.take 110) 106 4 ≠ ieee_crc32 ((wimg.take 110).take 106) := by
  exact ⟨rfl, by decide⟩

/-- **C3 (amended)**: given that the magic, image-version, endianness,
length and checksum-mode checks pass, `PartClone.__init__` fails with the
header-CRC error exactly when the stored `header_crc32` differs from the
table-driven CRC32 of the first 106 bytes with seed `0xffffffff` and *no*
final XOR; that value is the complement of the standard IEEE CRC32. -/
theorem C3_amended_header_crc (image : List Nat) (bos : Nat)
    (hmagic : ¬((image.take 110).take 15 ≠ PARTCLONE))
    (hver : ¬(slice (image.take 110) 30 34 ≠ [48, 48, 48, 50]))
    (hend : ¬(readLE (slice (image.take 110) 34 36) ≠ 0xc0de
      ∧ readLE (slice (image.take 110) 34 36) ≠ 0xdec0))
    (hlen : ¬((image.take 110).length < 110))
    (hmode : ¬(pcField (image.take 110) 96 2 ≠ 0 ∧ pcField (image.take 110) 96 2 ≠ 32)) :
    (partCloneOpen image bos = .error .headerCrcMismatch ↔
      pcField (image.take 110) 106 4 ≠ crc32 ((image.take 110).take 106) CRC32_SEED) ∧
    ∀ buf : List Nat, crc32 buf CRC32_SEED = ieee_crc32 buf ^^^ 0xffffffff := by
  constructor
  · unfold partCloneOpen
    rw [if_neg hmagic, if_neg hver, if_neg hend, if_neg hlen, if_neg hmode]
    by_cases hcrc : pcField (image.take 110) 106 4
        ≠ crc32 ((image.take 110).take 106) CRC32_SEED
    · rw [if_pos hcrc]
      simp [hcrc]
    · rw [if_neg hcrc]
      have hne : pcReadBitmap image bos ≠ .error .headerCrcMismatch := by
        unfold pcReadBitmap
        split
        · simp
        · split
          · simp
          · split
            · simp
            · split
              · simp
              · simp
      constructor
      · intro hx
        exact absurd hx hne
      · intro hx
        exact absurd hx hcrc
  · intro buf
    unfold ieee_crc32
    rw [Nat.xor_assoc]
    simp

set_option maxRecDepth 100000 in
/-- Witness for the amended C3 at the concrete image `wimg`. -/
theorem C3_witness :
    (¬((wimg.take 110).take 15 ≠ PARTCLONE) ∧
      ¬(slice (wimg.take 110) 30 34 ≠ [48, 48, 48, 50]) ∧
      ¬(readLE (slice (wimg.take 110) 34 36) ≠ 0xc0de
        ∧ readLE (slice (wimg.take 110) 34 36) ≠ 0xdec0) ∧
      ¬((wimg.take 110).length < 110) ∧
      ¬(pcField (wimg.take 110) 96 2 ≠ 0 ∧ pcField (wimg.take 110) 96 2 ≠ 32)) ∧
    (partCloneOpen wimg 1024 = .error .headerCrcMismatch ↔
      pcField (wimg.take 110) 106 4 ≠ crc32 ((wimg.take 110).take 106) CRC32_SEED) ∧
    (∀ buf : List Nat, crc32 buf CRC32_SEED = ieee_crc32 buf ^^^ 0xffffffff) := by
  refine ⟨⟨by decide, by decide, by decide, by decide, by decide⟩, ?_⟩
  exact C3_amended_header_crc wimg 1024 (by decide) (by decide) (by decide) (by decide)
    (by decide)

set_option maxRecDepth 100000 in
/-- **C7** (code bug): on an input that starts with the ntfsclone magic,
`PartClone.__init__` raises a plain `PartCloneException` that carries no
bytes — not the `WrongImageFile` the spec (and `readImage`'s own
documentation in `main.py`) requires — while `NtfsClone.__init__` and
`VolumeHeader.__init__` do raise `WrongImageFile` carrying the bytes
already read. -/
theorem C7_wrong_magic_behaviour :
    partCloneOpen ntfsProbe110 1024 = .error .notPartcloneImage ∧
    ntfsOpen partcloneProbe50 = .error (.wrongImageFile partcloneProbe50) ∧
    volumeHeaderOpen junkProbe512 = .error (.wrongImageFile junkProbe512) := by
  exact ⟨rfl, rfl, rfl⟩

theorem getBlockOffset_error_iff (img : Image) (k : Nat) (e : BlockErr) :
    (getBlockOffset img k = .error e ↔ blockInUse img k = .error e) := by
  unfold getBlockOffset
  rcases h : blockInUse img k with e' | b
  · simp
  · cases b <;> simp

theorem clusterOffset_ne_outOfRange (cs : Nat) (ranges : List ClusterRange) (c : Nat) :
    clusterOffset cs ranges c ≠ .error .outOfRange := by
  unfold clusterOffset
  split
  · simp
  · split
    · split
      · simp
      · simp
    · simp

/-- **C6 (amended)**: `ImageBackup.blockInUse` / `getBlockOffset` raise the
out-of-range error exactly when `block_no < 0` or
`block_no ≥ 8 * len(bitmap)` — block numbers in
`[total_blocks, 8*ceil(total_blocks/8))` (the masked hypothetical high bits
of the final byte) do *not* raise, they read as not-in-use; and
`NtfsClone.getBlockOffset` raises exactly when `block_no < 0` or
`block_no > nr_clusters` (so `block_no = nr_clusters` does not raise). -/
theorem C6_amended_range_check :
    (∀ (img : Image) (block_no : Int),
      blockInUseI img block_no = .error .outOfRange ↔
        block_no < 0 ∨ (8 * img.bitmap.length : Int) ≤ block_no) ∧
    (∀ (img : Image) (block_no : Int),
      getBlockOffsetI img block_no = .error .outOfRange ↔
        block_no < 0 ∨ (8 * img.bitmap.length : Int) ≤ block_no) ∧
    (∀ (nr cs : Nat) (ranges : List ClusterRange) (block_no : Int),
      ntfsGetBlockOffset nr cs ranges block_no = .error .outOfRange ↔
        block_no < 0 ∨ (nr : Int) < block_no) := by
  refine ⟨?_, ?_, ?_⟩
  · intro img block_no
    unfold blockInUseI blockInUse
    by_cases h0 : block_no < 0
    · simp [h0]
    · rw [if_neg h0]
      by_cases h1 : img.bitmap.length ≤ block_no.toNat / 8
      · rw [if_pos h1]
        constructor
        · intro _
          omega
        · intro _
          rfl
      · rw [if_neg h1]
        constructor
        · intro hx
          exact absurd hx (by simp)
        · intro hx
          omega
  · intro img block_no
    unfold getBlockOffsetI
    by_cases h0 : block_no < 0
    · simp [h0]
    · rw [if_neg h0, getBlockOffset_error_iff]
      unfold blockInUse
      by_cases h1 : img.bitmap.length ≤ block_no.toNat / 8
      · rw [if_pos h1]
        constructor
        · intro _
          omega
        · intro _
          rfl
      · rw [if_neg h1]
        constructor
        · intro hx
          exact absurd hx (by simp)
        · intro hx
          omega
  · intro nr cs ranges block_no
    unfold ntfsGetBlockOffset
    by_cases h0 : block_no < 0 ∨ (nr : Int) < block_no
    · rw [if_pos h0]
      simp [h0]
    · rw [if_neg h0]
      constructor
      · intro hx
        exact absurd hx (clusterOffset_ne_outOfRange cs ranges block_no.toNat)
      · intro hx
        exact absurd hx h0

/-!
## NtfsClone binary search (C8/C9 machinery)
-/

/-- Loop invariant preservation for the binary search of
`ClusterIndex.offset`: on a contiguous chain of ranges, a bracketed search
terminates (within `r - l` iterations) at the range containing `c`. -/
theorem bsearchAux_correct (ranges : List ClusterRange) (c N : Nat)
    (hchain : ∀ i, i + 1 < ranges.length →
      (ranges.getD (i + 1) default).start = (ranges.getD i default).endCluster)
    (hlastEnd : (ranges.getD (ranges.length - 1) default).endCluster = N) :
    ∀ fuel l r, r ≤ ranges.length → l < r →
      (ranges.getD l default).start ≤ c →
      (if r < ranges.length then c < (ranges.getD r default).start else c < N) →
      r - l ≤ fuel →
      ∃ j, bsearchAux ranges c fuel l r = some j ∧ j < ranges.length ∧
        (ranges.getD j default).start ≤ c ∧ c < (ranges.getD j default).endCluster := by
  intro fuel
  induction fuel with
  | zero =>
    intro l r _ hlr _ _ hf
    omega
  | succ f ih =>
    intro l r hr hlr hcl hcr hf
    rw [bsearchAux, if_pos hlr]
    by_cases h1 : c < (ranges.getD ((l + r) / 2) default).start
    · rw [if_pos h1]
      have hm_le : l ≤ (l + r) / 2 := by omega
      have hm_lt : (l + r) / 2 < r := by omega
      have hlm : l < (l + r) / 2 := by
        rcases Nat.eq_or_lt_of_le hm_le with he | hl
        · exfalso
          rw [← he] at h1
          omega
        · exact hl
      exact ih l ((l + r) / 2) (by omega) hlm hcl
        (by rw [if_pos (by omega)]; exact h1) (by omega)
    · rw [if_neg h1]
      by_cases h2 : c < (ranges.getD ((l + r) / 2) default).endCluster
      · rw [if_pos h2]
        exact ⟨(l + r) / 2, rfl, by omega, Nat.le_of_not_lt h1, h2⟩
      · rw [if_neg h2]
        have hm_lt : (l + r) / 2 < r := by omega
        have hlm : l < (l + r) / 2 := by
          by_contra hc'
          have hml : (l + r) / 2 = l := by omega
          have hrl : r = l + 1 := by omega
          rw [hml] at h2
          rcases Nat.lt_or_ge r ranges.length with hrlen | hrlen
          · have hch := hchain l (by omega)
            rw [if_pos hrlen, hrl, hch] at hcr
            exact h2 hcr
          · rw [if_neg (by omega)] at hcr
            have hl_eq : l = ranges.length - 1 := by omega
            rw [← hl_eq] at hlastEnd
            exact h2 (hlastEnd ▸ hcr)
        exact ih ((l + r) / 2) r hr (by omega) (Nat.le_of_not_lt h1) hcr (by omega)

/-- On a contiguous chain, range starts are monotone. -/
theorem chain_start_le (ranges : List ClusterRange)
    (hchain : ∀ i, i + 1 < ranges.length →
      (ranges.getD (i + 1) default).start = (ranges.getD i default).endCluster) :
    ∀ i j, i ≤ j → j < ranges.length →
      (ranges.getD i default).start ≤ (ranges.getD j default).start := by
  intro i j
  induction j with
  | zero =>
    intro hij _
    have : i = 0 := by omega
    rw [this]
  | succ j ih =>
    intro hij hj
    rcases Nat.eq_or_lt_of_le hij with he | hl
    · rw [he]
    · have h1 := ih (by omega) (by omega)
      have h2 := hchain j (by omega)
      unfold ClusterRange.endCluster at h2
      omega

/-- On a contiguous chain, an earlier range ends no later than a later one
starts. -/
theorem chain_end_le_start (ranges : List ClusterRange)
    (hchain : ∀ i, i + 1 < ranges.length →
      (ranges.getD (i + 1) default).start = (ranges.getD i default).endCluster) :
    ∀ i j, i < j → j < ranges.length →
      (ranges.getD i default).endCluster ≤ (ranges.getD j default).start := by
  intro i j hij hj
  have h1 := hchain i (by omega)
  have h2 := chain_start_le ranges hchain (i + 1) j (by omega) hj
  omega

/-- `ClusterIndex.offset` on a cluster inside used range `j` of a
contiguous chain returns
`offset + (cluster - start) * (cluster_size + 1)`. -/
theorem clusterOffset_formula (cs : Nat) (ranges : List ClusterRange) (c j : Nat)
    (hchain : ∀ i, i + 1 < ranges.length →
      (ranges.getD (i + 1) default).start = (ranges.getD i default).endCluster)
    (hj : j < ranges.length)
    (hjs : (ranges.getD j default).start ≤ c)
    (hje : c < (ranges.getD j default).endCluster)
    (hused : (ranges.getD j default).used = true) :
    clusterOffset cs ranges c = .ok (some ((ranges.getD j default).offset +
      (((c - (ranges.getD j default).start) * (cs + 1) : Nat) : Int))) := by
  have hcN : c < (ranges.getD (ranges.length - 1) default).endCluster := by
    rcases Nat.eq_or_lt_of_le (by omega : j ≤ ranges.length - 1) with he | hl
    · rw [← he]
      exact hje
    · have h1 := chain_end_le_start ranges hchain j (ranges.length - 1) hl (by omega)
      have h2 : (ranges.getD (ranges.length - 1) default).start
          ≤ (ranges.getD (ranges.length - 1) default).endCluster := by
        unfold ClusterRange.endCluster
        omega
      omega
  obtain ⟨j', hsearch, hj', hs', he'⟩ := bsearchAux_correct ranges c _ hchain rfl
    (ranges.length + 1) 0 ranges.length (le_refl _) (by omega)
    (le_trans (chain_start_le ranges hchain 0 j (by omega) hj) hjs)
    (by rw [if_neg (by omega)]; exact hcN)
    (by omega)
  have hjj : j' = j := by
    by_contra hne'
    rcases Nat.lt_or_ge j' j with hlt | hge
    · have := chain_end_le_start ranges hchain j' j hlt hj
      omega
    · have hgt : j < j' := by omega
      have := chain_end_le_start ranges hchain j j' hgt hj'
      omega
  subst hjj
  unfold clusterOffset
  rw [hsearch]
  dsimp only
  rw [if_pos ⟨hs', he'⟩, if_pos hused]

/-- **C8 (amended)**: used cluster ranges store the file position of their
first cluster's payload; `getBlockOffset(c)` on a used range `(s, p)`
returns `p + (c - s) * (cluster_size + 1)`.  For the command stream
`[0, 10] [1]×3 [0, 5] [1]×2` (cluster size 4, data at 56) the ranges are
`(F,0,10,⊥) (T,10,3,p0) (F,13,5,⊥) (T,18,2,p1)` with
`p0 = offset_to_image_data + 9 + 1` (the 9-byte `[0, count]` record plus
the command byte — not `offset_to_image_data + 1` as the spec says) and
`p1 = p0 + 3*(cluster_size + 1) + 9`, and `getBlockOffset(11)` returns
`p0 + (cluster_size + 1)`. -/
theorem C8_amended_cluster_index :
    (∀ (cs : Nat) (ranges : List ClusterRange) (c j : Nat),
      (∀ i, i + 1 < ranges.length →
        (ranges.getD (i + 1) default).start = (ranges.getD i default).endCluster) →
      j < ranges.length →
      (ranges.getD j default).start ≤ c →
      c < (ranges.getD j default).endCluster →
      (ranges.getD j default).used = true →
      clusterOffset cs ranges c = .ok (some ((ranges.getD j default).offset +
        (((c - (ranges.getD j default).start) * (cs + 1) : Nat) : Int)))) ∧
    ntfsBuildBlockIndex 4 20 56 (c8file 4) = .ok c8ranges ∧
    (c8ranges.getD 1 default).offset = 56 + 9 + 1 ∧
    (c8ranges.getD 3 default).offset = (56 + 9 + 1) + 3 * (4 + 1) + 9 ∧
    ntfsGetBlockOffset 20 4 c8ranges 11 = .ok (some ((56 + 9 + 1) + (4 + 1))) := by
  exact ⟨clusterOffset_formula, by decide, by decide, by decide, by decide⟩

/-- Counterexample to C8 as stated: the spec's scenario puts the first used
range's offset at `offset_to_image_data + 1`, but the index built from the
stream stores `offset_to_image_data + 10` (the `[0, 10]` record occupies 9
bytes before the first `0x01` command byte). -/
theorem C8_counterexample :
    ntfsBuildBlockIndex 4 20 56 (c8file 4) = .ok c8ranges ∧
    (c8ranges.getD 1 default).offset ≠ 56 + 1 := by
  exact ⟨by decide, by decide⟩

/-- Witness for the amended C8's general conjunct at cluster 11 of
`c8ranges`. -/
theorem C8_witness :
    ((1 : Nat) < c8ranges.length ∧ (c8ranges.getD 1 default).start ≤ 11 ∧
      11 < (c8ranges.getD 1 default).endCluster ∧ (c8ranges.getD 1 default).used = true) ∧
    clusterOffset 4 c8ranges 11 = .ok (some ((c8ranges.getD 1 default).offset +
      (((11 - (c8ranges.getD 1 default).start) * (4 + 1) : Nat) : Int))) := by
  refine ⟨⟨by decide, by decide, by decide, by decide⟩, ?_⟩
  refine C8_amended_cluster_index.1 4 c8ranges 11 1 ?_ (by decide) (by decide) (by decide)
    (by decide)
  intro i hi
  have hlen : c8ranges.length = 4 := rfl
  rw [hlen] at hi
  have hub : i ≤ 2 := by omega
  interval_cases i <;> decide

/-- **C9**: the binary-search loop of `ClusterIndex.offset` terminates (and
passes its assertion) for every cluster inside a contiguous,
non-overlapping cover of `[0, nr_clusters)`, but termination is not
guaranteed at or beyond the covered interval: at `cluster = 10` on the
single range `[0, 10)` the loop never finishes, whatever the fuel. -/
theorem C9_bsearch_termination :
    (∀ (cs : Nat) (ranges : List ClusterRange) (c : Nat),
      ranges ≠ [] →
      (ranges.getD 0 default).start = 0 →
      (∀ i, i + 1 < ranges.length →
        (ranges.getD (i + 1) default).start = (ranges.getD i default).endCluster) →
      c < (ranges.getD (ranges.length - 1) default).endCluster →
      ∃ v, clusterOffset cs ranges c = .ok v) ∧
    (∀ fuel, bsearchAux c9ranges 10 fuel 0 1 = none) := by
  constructor
  · intro cs ranges c hne hfirst hchain hc
    have hlen : 0 < ranges.length := List.length_pos.mpr hne
    obtain ⟨j, hsearch, hj, hs, he⟩ := bsearchAux_correct ranges c _ hchain rfl
      (ranges.length + 1) 0 ranges.length (le_refl _) hlen
      (by rw [hfirst]; omega) (by rw [if_neg (by omega)]; exact hc) (by omega)
    unfold clusterOffset
    rw [hsearch]
    dsimp only
    rw [if_pos ⟨hs, he⟩]
    by_cases hu : (ranges.getD j default).used = true
    · exact ⟨_, by rw [if_pos hu]⟩
    · exact ⟨_, by rw [if_neg hu]⟩
  · intro fuel
    induction fuel with
    | zero => rfl
    | succ f ih =>
      calc bsearchAux c9ranges 10 (f + 1) 0 1 = bsearchAux c9ranges 10 f 0 1 := rfl
        _ = none := ih

/-- Witness for C9's termination conjunct: cluster 9 of the single range
`[0, 10)`. -/
theorem C9_witness :
    (c9ranges ≠ [] ∧ (c9ranges.getD 0 default).start = 0 ∧
      9 < (c9ranges.getD (c9ranges.length - 1) default).endCluster) ∧
    ∃ v, clusterOffset 4 c9ranges 9 = .ok v := by
  refine ⟨⟨by decide, by decide, by decide⟩, ?_⟩
  refine C9_bsearch_termination.1 4 c9ranges 9 (by decide) (by decide) ?_ (by decide)
  intro i hi
  have hlen : c9ranges.length = 1 := rfl
  rw [hlen] at hi
  omega

/-!
## PartImage `usedBlocksRange` (C5 machinery)
-/

theorem mask_testBit_lt (t m : Nat) (ht : t ≤ 8) (hm : m < 8) :
    (((1 <<< t) - 1) ^^^ 255 : Nat).testBit m = decide (t ≤ m) := by
  have hall : ∀ t' < 9, ∀ m' < 8,
      (((1 <<< t') - 1) ^^^ 255 : Nat).testBit m' = decide (t' ≤ m') := by decide
  exact hall t (by omega) m hm

theorem mask_lt_256 (t : Nat) (ht : t ≤ 8) : (((1 <<< t) - 1) ^^^ 255 : Nat) < 256 := by
  have h1 : (1 <<< t) - 1 < 2 ^ 8 := by
    rw [Nat.one_shiftLeft]
    have : (2 : Nat) ^ t ≤ 2 ^ 8 := Nat.pow_le_pow_right (by norm_num) ht
    omega
  have h2 : (255 : Nat) < 2 ^ 8 := by norm_num
  calc ((1 <<< t) - 1) ^^^ 255 < 2 ^ 8 := Nat.xor_lt_two_pow h1 h2
    _ = 256 := by norm_num

theorem masked_testBit (b t m : Nat) (ht : t ≤ 8) :
    (b &&& (((1 <<< t) - 1) ^^^ 255)).testBit m
      = (b.testBit m && (decide (t ≤ m) && decide (m < 8))) := by
  rw [Nat.testBit_and]
  rcases Nat.lt_or_ge m 8 with hm | hm
  · rw [mask_testBit_lt t m ht hm]
    simp [hm]
  · have hf : (((1 <<< t) - 1) ^^^ 255 : Nat).testBit m = false := by
      apply Nat.testBit_lt_two_pow
      have h28 : (256 : Nat) ≤ 2 ^ m := by
        calc (256 : Nat) = 2 ^ 8 := by norm_num
          _ ≤ 2 ^ m := Nat.pow_le_pow_right (by norm_num) hm
      exact lt_of_lt_of_le (mask_lt_256 t ht) h28
    rw [hf]
    simp [hm, Nat.not_lt.mpr hm]

/-- The whole masked byte is zero exactly when no bit at positions
`[t, 8)` of the original byte is set. -/
theorem masked_zero_clear {b t : Nat} (ht : t ≤ 8) (hb : b < 256)
    (h : b &&& (((1 <<< t) - 1) ^^^ 255) = 0) :
    ∀ m, t ≤ m → m < 8 → b.testBit m = false := by
  intro m hm1 hm2
  have := congrArg (fun x => Nat.testBit x m) h
  simp only [Nat.zero_testBit] at this
  rw [masked_testBit b t m ht] at this
  simpa [hm1, hm2] using this

theorem masked_testBit_orig {b t m : Nat} (ht : t ≤ 8)
    (h : (b &&& (((1 <<< t) - 1) ^^^ 255)).testBit m = true) : b.testBit m = true := by
  rw [masked_testBit b t m ht] at h
  exact (Bool.and_eq_true_iff.mp h).1

theorem masked_lt_256 (b t : Nat) (ht : t ≤ 8) :
    b &&& (((1 <<< t) - 1) ^^^ 255) < 256 :=
  lt_of_le_of_lt Nat.and_le_right (mask_lt_256 t ht)

theorem usedAt_byte (bm : List Nat) (r i : Nat) (hi : i < 8) :
    usedAt bm (8 * r + i) = (bm.getD r 0).testBit i := by
  unfold usedAt
  rw [show (8 * r + i) / 8 = r by omega, show (8 * r + i) % 8 = i by omega]

/-- Specification of the within-byte scanning loops of `usedBlocksRange`:
starting at bit `t` of `byte` with run state `(s, l)`, an early return
(`Sum.inl`) yields a nonempty run of set bits that ends before bit 8, and a
fall-through (`Sum.inr`) yields either an empty run with all bits `[t, 8)`
clear, or a nonempty run of set bits ending exactly at bit 8; the run never
shrinks. -/
theorem scanBits_spec (byte byte_idx : Nat) :
    ∀ (fuel t : Nat) (s : Int) (l : Nat), fuel + t = 8 →
      ((l = 0 ∧ s = -1) ∨
        (∃ b0 : Nat, s = ((8 * byte_idx + b0 : Nat) : Int) ∧ b0 + l = t ∧ 1 ≤ l ∧
          ∀ m, m < l → byte.testBit (b0 + m) = true)) →
      (∀ rs rl, scanBits byte byte_idx fuel t s l = Sum.inl (rs, rl) →
        ∃ b0 : Nat, rs = ((8 * byte_idx + b0 : Nat) : Int) ∧ 1 ≤ rl ∧ b0 + rl < 8 ∧
          ∀ m, m < rl → byte.testBit (b0 + m) = true) ∧
      (∀ rs rl, scanBits byte byte_idx fuel t s l = Sum.inr (rs, rl) →
        l ≤ rl ∧
        ((rl = 0 ∧ rs = s ∧ ∀ m, t ≤ m → m < 8 → byte.testBit m = false) ∨
          (∃ b0 : Nat, rs = ((8 * byte_idx + b0 : Nat) : Int) ∧ b0 + rl = 8 ∧ 1 ≤ rl ∧
            ∀ m, m < rl → byte.testBit (b0 + m) = true))) := by
  intro fuel
  induction fuel with
  | zero =>
    intro t s l hft hstate
    have hrfl : scanBits byte byte_idx 0 t s l = Sum.inr (s, l) := rfl
    constructor
    · intro rs rl hres
      rw [hrfl] at hres
      exact absurd hres (by simp)
    · intro rs rl hres
      rw [hrfl, Sum.inr.injEq, Prod.mk.injEq] at hres
      obtain ⟨h1, h2⟩ := hres
      subst h1
      subst h2
      refine ⟨le_refl _, ?_⟩
      rcases hstate with ⟨h0, hs⟩ | ⟨b0, hs0, hb0, hl1, hrun⟩
      · exact Or.inl ⟨h0, rfl, fun m hm1 hm2 => by omega⟩
      · exact Or.inr ⟨b0, hs0, by omega, hl1, hrun⟩
  | succ f ih =>
    intro t s l hft hstate
    have ht : t < 8 := by omega
    have hstep : scanBits byte byte_idx (f + 1) t s l =
        if byte.testBit t then
          (if l = 0 then scanBits byte byte_idx f (t + 1) ((8 * byte_idx + t : Nat) : Int) 1
           else scanBits byte byte_idx f (t + 1) s (l + 1))
        else (if l ≠ 0 then Sum.inl (s, l) else scanBits byte byte_idx f (t + 1) s l) := rfl
    by_cases hb : byte.testBit t
    · by_cases hl : l = 0
      · subst hl
        rw [hstep, if_pos hb, if_pos rfl]
        have hrec := ih (t + 1) ((8 * byte_idx + t : Nat) : Int) 1 (by omega)
          (Or.inr ⟨t, rfl, by omega, by omega, by
            intro m hm
            have hm0 : m = 0 := by omega
            subst hm0
            simpa using hb⟩)
        refine ⟨hrec.1, ?_⟩
        intro rs rl hres
        obtain ⟨hle, hcase⟩ := hrec.2 rs rl hres
        refine ⟨by omega, ?_⟩
        rcases hcase with ⟨h0, _, _⟩ | hright
        · omega
        · exact Or.inr hright
      · rcases hstate with ⟨h0, _⟩ | ⟨b0, hs0, hb0, hl1, hrun⟩
        · exact absurd h0 hl
        rw [hstep, if_pos hb, if_neg hl]
        have hrec := ih (t + 1) s (l + 1) (by omega)
          (Or.inr ⟨b0, hs0, by omega, by omega, by
            intro m hm
            rcases Nat.lt_or_ge m l with h | h
            · exact hrun m h
            · have hml : m = l := by omega
              subst hml
              rw [show b0 + m = t by omega]
              exact hb⟩)
        refine ⟨hrec.1, ?_⟩
        intro rs rl hres
        obtain ⟨hle, hcase⟩ := hrec.2 rs rl hres
        refine ⟨by omega, ?_⟩
        rcases hcase with ⟨h0, _, _⟩ | hright
        · omega
        · exact Or.inr hright
    · rw [Bool.not_eq_true] at hb
      by_cases hl : l = 0
      · subst hl
        rw [hstep, if_neg (by rw [hb]; simp), if_neg (by simp)]
        have hs : s = -1 := by
          rcases hstate with ⟨_, hs⟩ | ⟨_, _, _, h1, _⟩
          · exact hs
          · omega
        have hrec := ih (t + 1) s 0 (by omega) (Or.inl ⟨rfl, hs⟩)
        refine ⟨hrec.1, ?_⟩
        intro rs rl hres
        obtain ⟨hle, hcase⟩ := hrec.2 rs rl hres
        refine ⟨by omega, ?_⟩
        rcases hcase with ⟨h0, hrs, hclear⟩ | hright
        · refine Or.inl ⟨h0, hrs, fun m hm1 hm2 => ?_⟩
          rcases Nat.eq_or_lt_of_le hm1 with he | hlt
          · rw [← he]
            exact hb
          · exact hclear m (by omega) hm2
        · exact Or.inr hright
      · rcases hstate with ⟨h0, _⟩ | ⟨b0, hs0, hb0, hl1, hrun⟩
        · exact absurd h0 hl
        rw [hstep, if_neg (by rw [hb]; simp), if_pos hl]
        constructor
        · intro rs rl hres
          rw [Sum.inl.injEq, Prod.mk.injEq] at hres
          obtain ⟨h1, h2⟩ := hres
          subst h1
          subst h2
          exact ⟨b0, hs0, hl1, by omega, hrun⟩
        · intro rs rl hres
          exact absurd hres (by simp)

/-- Specification of the zero-byte skipping loop: with enough fuel it
returns the index of the first nonzero byte at or after `b0` (or an index
past the end), with all bytes in between zero. -/
theorem skipZeros_spec (bitmap : List Nat) :
    ∀ fuel b0, bitmap.length ≤ fuel + b0 →
      b0 ≤ skipZeros bitmap fuel b0 ∧
      (∀ j, b0 ≤ j → j < skipZeros bitmap fuel b0 → bitmap.getD j 0 = 0) ∧
      (skipZeros bitmap fuel b0 < bitmap.length →
        bitmap.getD (skipZeros bitmap fuel b0) 0 ≠ 0) := by
  intro fuel
  induction fuel with
  | zero =>
    intro b0 hf
    have hrfl : skipZeros bitmap 0 b0 = b0 := rfl
    rw [hrfl]
    exact ⟨le_refl _, fun j h1 h2 => by omega, fun h => by omega⟩
  | succ f ih =>
    intro b0 hf
    have hstep : skipZeros bitmap (f + 1) b0 =
        if b0 < bitmap.length ∧ bitmap.getD b0 0 = 0 then skipZeros bitmap f (b0 + 1)
        else b0 := rfl
    by_cases hc : b0 < bitmap.length ∧ bitmap.getD b0 0 = 0
    · rw [hstep, if_pos hc]
      obtain ⟨hrec1, hrec2, hrec3⟩ := ih (b0 + 1) (by omega)
      refine ⟨by omega, ?_, hrec3⟩
      intro j h1 h2
      rcases Nat.eq_or_lt_of_le h1 with he | hlt
      · rw [← he]
        exact hc.2
      · exact hrec2 j (by omega) h2
    · rw [hstep, if_neg hc]
      refine ⟨le_refl _, fun j h1 h2 => by omega, ?_⟩
      intro hlt
      rcases Decidable.not_and_iff_or_not.mp hc with h | h
      · omega
      · exact h

/-- Specification of the `0xff`-byte loop: entering with a nonempty used
run `[s0, s0 + l)` ending at byte boundary `b`, an early return yields the
capped run `(s0, max_range)` entirely used, and a fall-through yields a
longer (still nonempty, still `≤ max_range`) used run ending at a byte
boundary whose byte is not `0xff`. -/
theorem scanFF_spec (bitmap : List Nat) (maxr : Nat) (hmax : 8 ≤ maxr) :
    ∀ fuel b (s0 l : Nat), bitmap.length + 1 ≤ fuel + b →
      s0 + l = 8 * b → 1 ≤ l → l ≤ maxr →
      (∀ m, m < l → usedAt bitmap (s0 + m) = true) →
      (∀ rs rl, scanFF bitmap maxr fuel b ((s0 : Nat) : Int) l = Sum.inl (rs, rl) →
        rs = ((s0 : Nat) : Int) ∧ rl = maxr ∧
          ∀ m, m < rl → usedAt bitmap (s0 + m) = true) ∧
      (∀ b2 rl, scanFF bitmap maxr fuel b ((s0 : Nat) : Int) l = Sum.inr (b2, rl) →
        s0 + rl = 8 * b2 ∧ 1 ≤ rl ∧ rl ≤ maxr ∧ b ≤ b2 ∧
        (∀ m, m < rl → usedAt bitmap (s0 + m) = true) ∧
        (b2 < bitmap.length → bitmap.getD b2 0 ≠ 255)) := by
  intro fuel
  induction fuel with
  | zero =>
    intro b s0 l hf hinv hl1 hlm hrun
    have hblen : bitmap.length < b := by omega
    have hrfl : scanFF bitmap maxr 0 b ((s0 : Nat) : Int) l = Sum.inr (b, l) := rfl
    constructor
    · intro rs rl hres
      rw [hrfl] at hres
      exact absurd hres (by simp)
    · intro b2 rl hres
      rw [hrfl, Sum.inr.injEq, Prod.mk.injEq] at hres
      obtain ⟨h1, h2⟩ := hres
      subst h1
      subst h2
      exact ⟨hinv, hl1, hlm, le_refl _, hrun, fun h => by omega⟩
  | succ f ih =>
    intro b s0 l hf hinv hl1 hlm hrun
    have hstep : scanFF bitmap maxr (f + 1) b ((s0 : Nat) : Int) l =
        if b < bitmap.length ∧ bitmap.getD b 0 = 255 then
          (if maxr ≤ l + 8 then Sum.inl (((s0 : Nat) : Int), maxr)
           else scanFF bitmap maxr f (b + 1) ((s0 : Nat) : Int) (l + 8))
        else Sum.inr (b, l) := rfl
    by_cases hc : b < bitmap.length ∧ bitmap.getD b 0 = 255
    · have hrun8 : ∀ m, m < l + 8 → usedAt bitmap (s0 + m) = true := by
        intro m hm
        rcases Nat.lt_or_ge m l with h | h
        · exact hrun m h
        · have hpos : s0 + m = 8 * b + (m - l) := by omega
          rw [hpos, usedAt_byte bitmap b (m - l) (by omega), hc.2]
          have h255 : ∀ i, i < 8 → Nat.testBit 255 i = true := by decide
          exact h255 (m - l) (by omega)
      by_cases hm8 : maxr ≤ l + 8
      · rw [hstep, if_pos hc, if_pos hm8]
        constructor
        · intro rs rl hres
          rw [Sum.inl.injEq, Prod.mk.injEq] at hres
          obtain ⟨h1, h2⟩ := hres
          subst h1
          subst h2
          exact ⟨rfl, rfl, fun m hm => hrun8 m (by omega)⟩
        · intro b2 rl hres
          exact absurd hres (by simp)
      · rw [hstep, if_pos hc, if_neg hm8]
        obtain ⟨hrec1, hrec2⟩ := ih (b + 1) s0 (l + 8) (by omega) (by omega) (by omega)
          (by omega) hrun8
        constructor
        · exact hrec1
        · intro b2 rl hres
          obtain ⟨k1, k2, k3, k4, k5, k6⟩ := hrec2 b2 rl hres
          exact ⟨k1, k2, k3, by omega, k5, k6⟩
    · rw [hstep, if_neg hc]
      constructor
      · intro rs rl hres
        exact absurd hres (by simp)
      · intro b2 rl hres
        rw [Sum.inr.injEq, Prod.mk.injEq] at hres
        obtain ⟨h1, h2⟩ := hres
        subst h1
        subst h2
        refine ⟨hinv, hl1, hlm, le_refl _, hrun, ?_⟩
        intro hlt
        rcases Decidable.not_and_iff_or_not.mp hc with h | h
        · omega
        · exact h

/-- The final partial-byte loop counts only set bits. -/
theorem countLowAux_spec (byte : Nat) :
    ∀ fuel t, fuel + t = 8 →
      countLowAux byte fuel t ≤ fuel ∧
      ∀ m, m < countLowAux byte fuel t → byte.testBit (t + m) = true := by
  intro fuel
  induction fuel with
  | zero =>
    intro t _
    exact ⟨le_refl _, fun m hm => by simp [countLowAux] at hm⟩
  | succ f ih =>
    intro t hft
    have hstep : countLowAux byte (f + 1) t =
        if byte.testBit t then 1 + countLowAux byte f (t + 1) else 0 := rfl
    by_cases hb : byte.testBit t
    · rw [hstep, if_pos hb]
      obtain ⟨h1, h2⟩ := ih (t + 1) (by omega)
      refine ⟨by omega, ?_⟩
      intro m hm
      cases m with
      | zero => simpa using hb
      | succ m =>
        rw [show t + (m + 1) = t + 1 + m by omega]
        exact h2 m (by omega)
    · rw [hstep, if_neg hb]
      exact ⟨by omega, fun m hm => by omega⟩

/-- Specification of `ubrTail`: entering sections 3-4 with a nonempty used
run `[s0, s0 + l)` ending at byte boundary `b`, the result is `(s0, l')`
with a nonempty, capped, entirely used run. -/
theorem ubrTail_spec (bitmap : List Nat) (maxr b s0 l : Nat) (hmax : 8 ≤ maxr)
    (hinv : s0 + l = 8 * b) (hl1 : 1 ≤ l) (hlm : l ≤ maxr)
    (hrun : ∀ m, m < l → usedAt bitmap (s0 + m) = true) :
    ∃ l', ubrTail bitmap maxr b ((s0 : Nat) : Int) l = (((s0 : Nat) : Int), l') ∧
      1 ≤ l' ∧ l' ≤ maxr ∧ ∀ m, m < l' → usedAt bitmap (s0 + m) = true := by
  obtain ⟨hspec1, hspec2⟩ := scanFF_spec bitmap maxr hmax (bitmap.length + 1) b s0 l
    (by omega) hinv hl1 hlm hrun
  rcases hres : scanFF bitmap maxr (bitmap.length + 1) b ((s0 : Nat) : Int) l with
    ⟨rs, rl⟩ | ⟨b2, rl⟩
  · obtain ⟨h1, h2, h3⟩ := hspec1 rs rl hres
    subst h2
    refine ⟨rl, ?_, by omega, le_refl _, h3⟩
    unfold ubrTail
    rw [hres]
    dsimp only
    rw [h1]
  · obtain ⟨k1, k2, k3, k4, k5, k6⟩ := hspec2 b2 rl hres
    by_cases hend : bitmap.length ≤ b2
    · refine ⟨rl, ?_, k2, k3, k5⟩
      unfold ubrTail
      rw [hres]
      dsimp only
      rw [if_pos hend]
    · obtain ⟨hc1, hc2⟩ := countLowAux_spec (bitmap.getD b2 0) 8 0 (by omega)
      refine ⟨min (rl + countLow (bitmap.getD b2 0)) maxr, ?_, by omega, by omega, ?_⟩
      · unfold ubrTail
        rw [hres]
        dsimp only
        rw [if_neg hend]
      · intro m hm
        rcases Nat.lt_or_ge m rl with h | h
        · exact k5 m h
        · have hcl8 : countLow (bitmap.getD b2 0) ≤ 8 := hc1
          have hpos : s0 + m = 8 * b2 + (m - rl) := by omega
          have hmc : m - rl < countLow (bitmap.getD b2 0) := by omega
          rw [hpos, usedAt_byte bitmap b2 (m - rl) (by omega)]
          have := hc2 (m - rl) hmc
          simpa using this

theorem getD_lt_256 (bitmap : List Nat) (hbytes : ∀ x ∈ bitmap, x < 256) (r : Nat)
    (hr : r < bitmap.length) : bitmap.getD r 0 < 256 := by
  rw [List.getD_eq_getElem?_getD, List.getElem?_eq_getElem hr]
  exact hbytes _ (List.getElem_mem hr)

/-- Sections 2-4 entered with no run started (`start_idx = -1, length = 0`):
either `(-1, 0)` with every block from byte `bi` on unused, or a nonempty
capped run of used blocks. -/
theorem ubrSec2_specA (bitmap : List Nat) (maxr bi : Nat)
    (hbytes : ∀ x ∈ bitmap, x < 256) (hmax : 8 ≤ maxr) :
    (ubrSec2 bitmap maxr bi (-1) 0 = (-1, 0) ∧
      ∀ j, 8 * bi ≤ j → usedAt bitmap j = false) ∨
    (∃ s l : Nat, ubrSec2 bitmap maxr bi (-1) 0 = (((s : Nat) : Int), l) ∧ 1 ≤ l ∧
      l ≤ maxr ∧ ∀ m, m < l → usedAt bitmap (s + m) = true) := by
  obtain ⟨hsk1, hsk2, hsk3⟩ := skipZeros_spec bitmap bitmap.length bi (by omega)
  by_cases hrend : bitmap.length ≤ skipZeros bitmap bitmap.length bi
  · left
    constructor
    · unfold ubrSec2
      rw [if_pos rfl, if_pos hrend]
    · intro j hj
      have hjb : bi ≤ j / 8 := by omega
      unfold usedAt
      rcases Nat.lt_or_ge (j / 8) (skipZeros bitmap bitmap.length bi) with hjr | hjr
      · rw [hsk2 (j / 8) hjb hjr, Nat.zero_testBit]
      · rw [List.getD_eq_default _ _ (by omega), Nat.zero_testBit]
  · have hrlen : skipZeros bitmap bitmap.length bi < bitmap.length := by omega
    have hbr : bitmap.getD (skipZeros bitmap bitmap.length bi) 0 ≠ 0 := hsk3 hrlen
    have hbrlt : bitmap.getD (skipZeros bitmap bitmap.length bi) 0 < 256 :=
      getD_lt_256 bitmap hbytes _ hrlen
    obtain ⟨hs1, hs2⟩ := scanBits_spec (bitmap.getD (skipZeros bitmap bitmap.length bi) 0)
      (skipZeros bitmap bitmap.length bi) 8 0 (-1) 0 (by omega) (Or.inl ⟨rfl, rfl⟩)
    rcases hres : scanBits (bitmap.getD (skipZeros bitmap bitmap.length bi) 0)
        (skipZeros bitmap bitmap.length bi) 8 0 (-1) 0 with ⟨rs, rl⟩ | ⟨rs, rl⟩
    · obtain ⟨b0, hrs, hrl1, hbrl, hrun⟩ := hs1 rs rl hres
      right
      refine ⟨8 * skipZeros bitmap bitmap.length bi + b0, rl, ?_, hrl1, by omega, ?_⟩
      · unfold ubrSec2
        rw [if_pos rfl,
          if_neg (by omega : ¬ bitmap.length ≤ skipZeros bitmap bitmap.length bi), hres]
        dsimp only
        rw [hrs]
      · intro m hm
        rw [show 8 * skipZeros bitmap bitmap.length bi + b0 + m
            = 8 * skipZeros bitmap bitmap.length bi + (b0 + m) by omega,
          usedAt_byte bitmap _ (b0 + m) (by omega)]
        exact hrun m hm
    · obtain ⟨hle0, hcase⟩ := hs2 rs rl hres
      rcases hcase with ⟨hrl0, hrsv, hclear⟩ | ⟨b0, hrsv, hb8, hrl1, hrun⟩
      · exact absurd (byte_eq_zero hbrlt (fun i hi => hclear i (by omega) hi)) hbr
      · right
        have hrun' : ∀ m, m < rl →
            usedAt bitmap (8 * skipZeros bitmap bitmap.length bi + b0 + m) = true := by
          intro m hm
          rw [show 8 * skipZeros bitmap bitmap.length bi + b0 + m
              = 8 * skipZeros bitmap bitmap.length bi + (b0 + m) by omega,
            usedAt_byte bitmap _ (b0 + m) (by omega)]
          exact hrun m hm
        obtain ⟨l', hub, hl1', hlm', hrun2⟩ := ubrTail_spec bitmap maxr
          (skipZeros bitmap bitmap.length bi + 1)
          (8 * skipZeros bitmap bitmap.length bi + b0) rl hmax (by omega) hrl1 (by omega) hrun'
        refine ⟨8 * skipZeros bitmap bitmap.length bi + b0, l', ?_, hl1', hlm', hrun2⟩
        unfold ubrSec2
        rw [if_pos rfl,
          if_neg (by omega : ¬ bitmap.length ≤ skipZeros bitmap bitmap.length bi), hres]
        dsimp only
        rw [hrsv]
        exact hub

/-- Sections 2-4 entered with a run `[s0, s0 + l)` that filled the first
byte up to its boundary: the run continues through `ubrTail`. -/
theorem ubrSec2_specB (bitmap : List Nat) (maxr bi s0 l : Nat) (hmax : 8 ≤ maxr)
    (hinv : s0 + l = 8 * bi) (hl1 : 1 ≤ l) (hl8 : l ≤ 8)
    (hrun : ∀ m, m < l → usedAt bitmap (s0 + m) = true) :
    ∃ l', ubrSec2 bitmap maxr bi ((s0 : Nat) : Int) l = (((s0 : Nat) : Int), l') ∧
      1 ≤ l' ∧ l' ≤ maxr ∧ ∀ m, m < l' → usedAt bitmap (s0 + m) = true := by
  obtain ⟨l', h1, h2, h3, h4⟩ := ubrTail_spec bitmap maxr bi s0 l hmax hinv hl1 (by omega) hrun
  refine ⟨l', ?_, h2, h3, h4⟩
  unfold ubrSec2
  rw [if_neg (by omega : ¬ l = 0)]
  exact h1

/-- Main specification of `usedBlocksRange`: on a bitmap of genuine bytes,
at an index inside the bitmap, and with `max_block_range ≥ 8`, the result
is either `(-1, 0)` with every block at or after `idx` unused, or a
nonempty run of used blocks capped at `max_block_range`. -/
theorem usedBlocksRange_spec (bitmap : List Nat) (maxr idx : Nat)
    (hbytes : ∀ x ∈ bitmap, x < 256)
    (hidx : idx / 8 < bitmap.length)
    (hmax : 8 ≤ maxr) :
    (usedBlocksRange bitmap maxr idx = (-1, 0) ∧
      ∀ j, idx ≤ j → usedAt bitmap j = false) ∨
    (∃ s l : Nat, usedBlocksRange bitmap maxr idx = (((s : Nat) : Int), l) ∧ 1 ≤ l ∧
      l ≤ maxr ∧ ∀ m, m < l → usedAt bitmap (s + m) = true) := by
  have ht8 : idx % 8 < 8 := Nat.mod_lt _ (by norm_num)
  have hb0lt : bitmap.getD (idx / 8) 0 < 256 := getD_lt_256 bitmap hbytes _ hidx
  by_cases hmz : (bitmap.getD (idx / 8) 0) &&& (((1 <<< (idx % 8)) - 1) ^^^ 255) = 0
  · have heq : usedBlocksRange bitmap maxr idx = ubrSec2 bitmap maxr (idx / 8 + 1) (-1) 0 := by
      unfold usedBlocksRange
      rw [if_neg (not_not_intro hmz)]
    rcases ubrSec2_specA bitmap maxr (idx / 8 + 1) hbytes hmax with
      ⟨ha1, ha2⟩ | ⟨s, l, hb1, hb2, hb3, hb4⟩
    · left
      refine ⟨by rw [heq]; exact ha1, ?_⟩
      intro j hj
      rcases Nat.lt_or_ge j (8 * (idx / 8 + 1)) with hjlt | hjge
      · have hjd : j / 8 = idx / 8 := by omega
        unfold usedAt
        rw [hjd]
        exact masked_zero_clear (by omega) hb0lt hmz (j % 8) (by omega) (by omega)
      · exact ha2 j hjge
    · exact Or.inr ⟨s, l, by rw [heq]; exact hb1, hb2, hb3, hb4⟩
  · obtain ⟨hs1, hs2⟩ := scanBits_spec
      ((bitmap.getD (idx / 8) 0) &&& (((1 <<< (idx % 8)) - 1) ^^^ 255))
      (idx / 8) (8 - idx % 8) (idx % 8) (-1) 0 (by omega) (Or.inl ⟨rfl, rfl⟩)
    rcases hres : scanBits ((bitmap.getD (idx / 8) 0) &&& (((1 <<< (idx % 8)) - 1) ^^^ 255))
        (idx / 8) (8 - idx % 8) (idx % 8) (-1) 0 with ⟨rs, rl⟩ | ⟨rs, rl⟩
    · obtain ⟨b0, hrs, hrl1, hbrl, hrun⟩ := hs1 rs rl hres
      right
      refine ⟨8 * (idx / 8) + b0, rl, ?_, hrl1, by omega, ?_⟩
      · unfold usedBlocksRange
        rw [if_pos hmz, hres]
        dsimp only
        rw [hrs]
      · intro m hm
        have horig := masked_testBit_orig (t := idx % 8) (by omega) (hrun m hm)
        rw [show 8 * (idx / 8) + b0 + m = 8 * (idx / 8) + (b0 + m) by omega,
          usedAt_byte bitmap _ (b0 + m) (by omega)]
        exact horig
    · obtain ⟨hle0, hcase⟩ := hs2 rs rl hres
      rcases hcase with ⟨hrl0, hrsv, hclear⟩ | ⟨b0, hrsv, hb8, hrl1, hrun⟩
      · exfalso
        apply hmz
        apply byte_eq_zero (masked_lt_256 _ _ (by omega))
        intro i hi
        rcases Nat.lt_or_ge i (idx % 8) with hit | hit
        · rw [masked_testBit _ _ _ (by omega)]
          have hni : ¬ (idx % 8 ≤ i) := by omega
          simp [hni]
        · exact hclear i hit hi
      · have hrun' : ∀ m, m < rl → usedAt bitmap (8 * (idx / 8) + b0 + m) = true := by
          intro m hm
          have horig := masked_testBit_orig (t := idx % 8) (by omega) (hrun m hm)
          rw [show 8 * (idx / 8) + b0 + m = 8 * (idx / 8) + (b0 + m) by omega,
            usedAt_byte bitmap _ (b0 + m) (by omega)]
          exact horig
        obtain ⟨l', hub, hl1', hlm', hrun2⟩ := ubrSec2_specB bitmap maxr (idx / 8 + 1)
          (8 * (idx / 8) + b0) rl hmax (by omega) hrl1 (by omega) hrun'
        right
        refine ⟨8 * (idx / 8) + b0, l', ?_, hl1', hlm', hrun2⟩
        unfold usedBlocksRange
        rw [if_pos hmz, hres]
        dsimp only
        rw [hrsv]
        exact hub

/-- Counterexample to C5: with `block_size = 65536` the cap
`max_block_range = 262144 / 65536 = 4` is less than 8, and on an all-used
one-byte bitmap `usedBlocksRange` returns a run of length 8, exceeding the
cap. -/
theorem C5_counterexample :
    max_block_range 65536 < 8 ∧
    usedBlocksRange [255] (max_block_range 65536) 0 = (0, 8) := by decide

/-- **C5** (amended): for every bitmap of bytes, every starting index
within it, and every `block_size ≤ 32768` (so that
`max_block_range = 262144 / block_size ≥ 8`), `usedBlocksRange` returns
either `(-1, 0)` — and then no used block exists at or after `idx` — or a
pair `(start, length)` of a nonempty run of consecutive used blocks whose
length never exceeds `max_block_range`; in particular
`max_block_range 4096 = 64` and `max_block_range 512 = 512`. -/
theorem C5_amended_run_capping (bitmap : List Nat) (block_size idx : Nat)
    (hbytes : ∀ x ∈ bitmap, x < 256)
    (hidx : idx / 8 < bitmap.length)
    (hbs : 0 < block_size) (hbs2 : block_size ≤ 32768) :
    ((usedBlocksRange bitmap (max_block_range block_size) idx = (-1, 0) ∧
        ∀ j, idx ≤ j → usedAt bitmap j = false) ∨
      (∃ s l : Nat,
        usedBlocksRange bitmap (max_block_range block_size) idx = (((s : Nat) : Int), l) ∧
        1 ≤ l ∧ l ≤ max_block_range block_size ∧
        ∀ m, m < l → usedAt bitmap (s + m) = true)) ∧
    max_block_range 4096 = 64 ∧ max_block_range 512 = 512 := by
  have hmax : 8 ≤ max_block_range block_size := by
    unfold max_block_range
    calc (8 : Nat) = (1 <<< 18) / 32768 := by decide
      _ ≤ (1 <<< 18) / block_size := Nat.div_le_div_left hbs2 hbs
  exact ⟨usedBlocksRange_spec bitmap _ idx hbytes hidx hmax, rfl, rfl⟩

/-- Witness for C5: the bitmap `[60]` (bits 2-5 set) with
`block_size = 4096`, starting at index 1. -/
theorem C5_witness :
    ((∀ x ∈ ([60] : List Nat), x < 256) ∧ 1 / 8 < ([60] : List Nat).length ∧
      0 < 4096 ∧ 4096 ≤ 32768) ∧
    (((usedBlocksRange [60] (max_block_range 4096) 1 = (-1, 0) ∧
        ∀ j, 1 ≤ j → usedAt [60] j = false) ∨
      (∃ s l : Nat,
        usedBlocksRange [60] (max_block_range 4096) 1 = (((s : Nat) : Int), l) ∧
        1 ≤ l ∧ l ≤ max_block_range 4096 ∧
        ∀ m, m < l → usedAt [60] (s + m) = true)) ∧
      max_block_range 4096 = 64 ∧ max_block_range 512 = 512) :=
  ⟨⟨by decide, by decide, by decide, by decide⟩,
    C5_amended_run_capping [60] 4096 1 (by decide) (by decide) (by decide) (by decide)⟩

/-- Counterexample to C6: block 10 of an image with `total_blocks = 9`
(a masked hypothetical high bit of the final bitmap byte) does not raise —
`blockInUse` returns `False` and `getBlockOffset` returns `None`; and
`NtfsClone.getBlockOffset` does not raise the out-of-range error at
`block_no = nr_clusters`. -/
theorem C6_counterexample :
    c6img.total_blocks = 9 ∧
    blockInUseI c6img 10 = .ok false ∧
    getBlockOffsetI c6img 10 = .ok none ∧
    ntfsGetBlockOffset 5 512 c6ranges 5 ≠ .error .outOfRange := by
  refine ⟨rfl, rfl, rfl, ?_⟩
  have h : ntfsGetBlockOffset 5 512 c6ranges 5 = .error .noFuel := rfl
  rw [h]
  simp

end ImgBackup
